import Mathlib

/-!
# Verification of the Monkey interpreter front end (lexer + Pratt parser)

Shallow embedding of the Go sources:
* `token/token.go`  — token kinds, `Token`, keyword lookup
* `lexer/lexer.go`  — byte-wise scanner, modelled on the unconsumed
  character list: the head of the list plays the role of `currentChar`,
  the empty list is the past-end state in which `currentChar` holds the
  `0` sentinel, `readChar` is `tail` and `peekChar` is the head of the
  tail.
* `parser/parser.go` — recursive-descent / Pratt parser, modelled as
  explicit state passing with a fuel argument; an outer `none` means
  the model ran out of fuel (it never does for sufficient fuel), while
  the Go functions' `nil` results are the inner `Option`.
* `ast/ast.go`      — AST as mutual inductives, `String()` renderings.
-/

namespace Monkey

/-- Token kinds from `token/token.go` (a closed set of string constants
in Go; modelled as an enumeration). -/
inductive TokenType where
  | ILLEGAL | EOF
  | IDENT | INT
  | ASSIGN | PLUS | MINUS | BANG | ASTERISK | SLASH | LT | GT
  | COMMA | SEMICOLON | LPAREN | RPAREN | LBRACE | RBRACE
  | FUNCTION | LET | TRUE | FALSE | IF | ELSE | RETURN
  | EQ | NOT_EQ
  deriving DecidableEq, Repr

/-- The string value of each `TokenType` constant in `token/token.go`
(used by `%s` interpolation in parser error messages). -/
def TokenType.str : TokenType → String
  | .ILLEGAL => "ILLEGAL"
  | .EOF => "EOF"
  | .IDENT => "IDENT"
  | .INT => "INT"
  | .ASSIGN => "="
  | .PLUS => "+"
  | .MINUS => "-"
  | .BANG => "!"
  | .ASTERISK => "*"
  | .SLASH => "/"
  | .LT => "<"
  | .GT => ">"
  | .COMMA => ","
  | .SEMICOLON => ";"
  | .LPAREN => "("
  | .RPAREN => ")"
  | .LBRACE => "\x7b"
  | .RBRACE => "\x7d"
  | .FUNCTION => "FUNCTION"
  | .LET => "LET"
  | .TRUE => "TRUE"
  | .FALSE => "FALSE"
  | .IF => "IF"
  | .ELSE => "ELSE"
  | .RETURN => "RETURN"
  | .EQ => "=="
  | .NOT_EQ => "!="

/-- `token.Token`: a kind together with the literal source slice. -/
structure Token where
  type : TokenType
  literal : String
  deriving DecidableEq, Repr

/-- `token.LookupIdent`: the keyword table, defaulting to `IDENT`. -/
def lookupIdent (ident : String) : TokenType :=
  if ident = "fn" then .FUNCTION
  else if ident = "let" then .LET
  else if ident = "true" then .TRUE
  else if ident = "false" then .FALSE
  else if ident = "if" then .IF
  else if ident = "else" then .ELSE
  else if ident = "return" then .RETURN
  else .IDENT

/-- `lexer.isDigit`. -/
def isDigit (b : Char) : Bool :=
  '0' ≤ b && b ≤ '9'

/-- `lexer.isLetter`. -/
def isLetter (b : Char) : Bool :=
  ('a' ≤ b && b ≤ 'z') || ('A' ≤ b && b ≤ 'Z') || b == '_'

/-- Whitespace recognised by `lexer.skipWhitespace`. -/
def isWs (b : Char) : Bool :=
  b == ' ' || b == '\t' || b == '\n' || b == '\r'

/-- `lexer.peekChar` relative to the unconsumed tail: the next
character, or the `0` sentinel when past the end. -/
def peekC : List Char → Char
  | [] => Char.ofNat 0
  | d :: _ => d

/-- The discrimination performed by the `switch l.currentChar` in
`lexer.NextToken`, reified as an enumeration of the branches.  The Go
cases are mutually exclusive character values, so the testing order is
immaterial; `letter`/`digit`/`illegal` mirror the `default` arm. -/
inductive CharClass where
  | ceq | cplus | clparen | crparen | clbrace | crbrace | ccomma | csemi
  | cminus | cslash | cstar | clt | cgt | cbang | cnul
  | cletter | cdigit | cillegal
  deriving DecidableEq, Repr

/-- Which branch of the `switch` in `lexer.NextToken` fires for a
given `currentChar`. -/
def classify (c : Char) : CharClass :=
  if c = '=' then .ceq
  else if c = '+' then .cplus
  else if c = '(' then .clparen
  else if c = ')' then .crparen
  else if c = '{' then .clbrace
  else if c = '}' then .crbrace
  else if c = ',' then .ccomma
  else if c = ';' then .csemi
  else if c = '-' then .cminus
  else if c = '/' then .cslash
  else if c = '*' then .cstar
  else if c = '<' then .clt
  else if c = '>' then .cgt
  else if c = '!' then .cbang
  else if c = Char.ofNat 0 then .cnul
  else if isLetter c then .cletter
  else if isDigit c then .cdigit
  else .cillegal

/-- The body of the `switch` in `lexer.NextToken`, given the current
character `c` and the unconsumed tail `rest`.  Single- and
two-character branches end with the final `readChar` of the Go code;
the `=`/`!` branches consult `peekChar` and, on a match, consume both
characters; identifier and number branches return the maximal run, as
`readIdentifier`/`readNumber` do with their `input[startPos:currentPos]`
slices, without an extra advance; the `0` case is Go's `case 0:`
(both for an embedded NUL byte and past-end, where an extra `readChar`
still runs). -/
def nextTokenCons (c : Char) (rest : List Char) : Token × List Char :=
  match classify c with
  | .ceq =>
    if peekC rest = '=' then (⟨.EQ, "=="⟩, rest.tail)
    else (⟨.ASSIGN, String.mk [c]⟩, rest)
  | .cplus => (⟨.PLUS, String.mk [c]⟩, rest)
  | .clparen => (⟨.LPAREN, String.mk [c]⟩, rest)
  | .crparen => (⟨.RPAREN, String.mk [c]⟩, rest)
  | .clbrace => (⟨.LBRACE, String.mk [c]⟩, rest)
  | .crbrace => (⟨.RBRACE, String.mk [c]⟩, rest)
  | .ccomma => (⟨.COMMA, String.mk [c]⟩, rest)
  | .csemi => (⟨.SEMICOLON, String.mk [c]⟩, rest)
  | .cminus => (⟨.MINUS, String.mk [c]⟩, rest)
  | .cslash => (⟨.SLASH, String.mk [c]⟩, rest)
  | .cstar => (⟨.ASTERISK, String.mk [c]⟩, rest)
  | .clt => (⟨.LT, String.mk [c]⟩, rest)
  | .cgt => (⟨.GT, String.mk [c]⟩, rest)
  | .cbang =>
    if peekC rest = '=' then (⟨.NOT_EQ, "!="⟩, rest.tail)
    else (⟨.BANG, String.mk [c]⟩, rest)
  | .cnul => (⟨.EOF, ""⟩, rest)
  | .cletter =>
    let run := (c :: rest).takeWhile isLetter
    (⟨lookupIdent (String.mk run), String.mk run⟩, (c :: rest).dropWhile isLetter)
  | .cdigit =>
    let run := (c :: rest).takeWhile isDigit
    (⟨.INT, String.mk run⟩, (c :: rest).dropWhile isDigit)
  | .cillegal => (⟨.ILLEGAL, String.mk [c]⟩, rest)

/-- `lexer.NextToken` after `skipWhitespace`: classify `currentChar`
(the head; the `0` sentinel when the list is empty). -/
def nextTokenAt : List Char → Token × List Char
  | [] => (⟨.EOF, ""⟩, [])
  | c :: rest => nextTokenCons c rest

/-- `lexer.NextToken`: skip whitespace, then classify. -/
def nextToken (input : List Char) : Token × List Char :=
  nextTokenAt (input.dropWhile isWs)

/-- The iteration of `lexer.NextToken` calls, cut off by a fuel bound
(kept structural so that concrete runs evaluate). -/
def tokenizeAux : Nat → List Char → List Token
  | 0, _ => []
  | fuel + 1, s =>
    let r := nextToken s
    if r.1.type = .EOF then []
    else r.1 :: tokenizeAux fuel r.2

/-- The token stream of an input, up to (and excluding) the first
`EOF`: repeated calls of `lexer.NextToken`, as the parser makes them.
Every non-`EOF` token consumes at least one byte (`nextToken_lt`), so
`s.length + 1` calls always reach `EOF`; `tokenizeAux_stable` shows
the cut-off is never hit. -/
def tokenize (s : List Char) : List Token :=
  tokenizeAux (s.length + 1) s

/-- The `n`-th token produced by successive `NextToken` calls from a
given lexer state. -/
def nthToken (s : List Char) : Nat → Token
  | 0 => (nextToken s).1
  | n + 1 => nthToken (nextToken s).2 n

/-! ## AST (`ast/ast.go`)

Statements and expressions as mutual sum types.  Go's nillable child
pointers (`Expression`, `*BlockStatement`) become `Option` fields; a
`LetStatement`'s `Name` is its token and string value. -/

mutual
inductive Expression where
  | identE (tok : Token) (value : String)
  | intE (tok : Token) (value : Int)
  | boolE (tok : Token) (value : Bool)
  | prefixE (tok : Token) (op : String) (right : Option Expression)
  | infixE (tok : Token) (left : Option Expression) (op : String)
      (right : Option Expression)
  | ifE (tok : Token) (cond : Option Expression) (conseq : Block)
      (alt : Option Block)

inductive Stmt where
  | letS (tok : Token) (nameTok : Token) (nameVal : String)
      (value : Option Expression)
  | retS (tok : Token) (value : Option Expression)
  | exprS (tok : Token) (expr : Option Expression)

inductive Block where
  | mk (tok : Token) (stmts : List Stmt)
end

/-! `String()` renderings of `ast/ast.go`.  A `none` in a slot whose Go
rendering dereferences unconditionally (`PrefixExpression.Right`,
`InfixExpression.Left/Right`, `IfExpression.Condition`) renders as the
empty string here; Go would nil-panic there, and no such node is
rendered in the verified scenarios.  `LetStatement`/`ReturnStatement`
explicitly render a nil `Value` as the empty string, and
`ExpressionStatement` a nil `Expression`. -/

mutual
def Expression.render : Expression → String
  | .identE _ v => v
  | .intE tok _ => tok.literal
  | .boolE tok _ => tok.literal
  | .prefixE _ op r => "(" ++ op ++ renderExprOpt r ++ ")"
  | .infixE _ l op r =>
    "(" ++ renderExprOpt l ++ " " ++ op ++ " " ++ renderExprOpt r ++ ")"
  | .ifE _ cond conseq alt =>
    "if" ++ renderExprOpt cond ++ " " ++ conseq.render ++
      (match alt with
       | none => ""
       | some b => "else " ++ b.render)

def renderExprOpt : Option Expression → String
  | none => ""
  | some e => e.render

def Stmt.render : Stmt → String
  | .letS tok _ nameVal v =>
    tok.literal ++ " " ++ nameVal ++ " = " ++ renderExprOpt v ++ ";"
  | .retS tok v => tok.literal ++ " " ++ renderExprOpt v ++ ";"
  | .exprS _ e => renderExprOpt e

def Block.render : Block → String
  | .mk _ stmts => renderStmts stmts

def renderStmts : List Stmt → String
  | [] => ""
  | s :: rest => s.render ++ renderStmts rest
end

/-- `ast.Program.String`: concatenation of the statements' renderings
(the program being its statement list). -/
def renderProgram (prog : List Stmt) : String :=
  renderStmts prog

/-! ## Parser (`parser/parser.go`) -/

/-- Precedence constants (`iota`, starting at 1 after the blank). -/
def LOWEST : Nat := 1

def EQUALS : Nat := 2

def LESSGREATER : Nat := 3

def SUM : Nat := 4

def PRODUCT : Nat := 5

def PREFIX : Nat := 6

def CALL : Nat := 7

/-- The `precedences` map; lookups default to `LOWEST`
(`currentPrecedence`/`peekPrecedence`). -/
def tokenPrecedence : TokenType → Nat
  | .EQ => EQUALS
  | .NOT_EQ => EQUALS
  | .LT => LESSGREATER
  | .GT => LESSGREATER
  | .PLUS => SUM
  | .MINUS => SUM
  | .SLASH => PRODUCT
  | .ASTERISK => PRODUCT
  | .LPAREN => CALL
  | _ => LOWEST

/-- Parser state: the `current`/`peek` lookahead buffer, the not yet
pulled remainder of the token stream, and the accumulated errors. -/
structure PState where
  current : Token
  peek : Token
  rest : List Token
  errors : List String
  deriving Repr

/-- One pull from the lexer: past the produced stream the lexer
yields `Token{EOF, ""}` forever (`nthToken_nil`). -/
def pullToken : List Token → Token × List Token
  | [] => (⟨.EOF, ""⟩, [])
  | t :: ts => (t, ts)

/-- `parser.advanceToken`. -/
def advanceToken (st : PState) : PState :=
  { current := st.peek
    peek := (pullToken st.rest).1
    rest := (pullToken st.rest).2
    errors := st.errors }

/-- `parser.New`: the double `advanceToken` from the zero-valued
buffer loads the first two pulls into `current` and `peek`. -/
def mkPState (toks : List Token) : PState :=
  { current := (pullToken toks).1
    peek := (pullToken (pullToken toks).2).1
    rest := (pullToken (pullToken toks).2).2
    errors := [] }

/-- `parser.tokenIs`. -/
def tokenIs (t : Token) (ty : TokenType) : Bool :=
  t.type == ty

/-- `parser.addError` (`append` to the error slice). -/
def addError (st : PState) (msg : String) : PState :=
  { st with errors := st.errors ++ [msg] }

/-- Measure for `skipToStatementEnd`: pulls left until `current` can
only be `EOF`. -/
def pMeasure (st : PState) : Nat :=
  st.rest.length + (if st.peek.type = .EOF then 0 else 1) +
    (if st.current.type = .EOF then 0 else 1)

/-- The loop of `parser.skipToStatementEnd`, cut off by a fuel bound
(kept structural so that concrete runs evaluate). -/
def skipAux : Nat → PState → PState
  | 0, st => st
  | fuel + 1, st =>
    if st.current.type = .SEMICOLON ∨ st.current.type = .EOF then st
    else skipAux fuel (advanceToken st)

/-- `parser.skipToStatementEnd`: advance until `current` is a
`SEMICOLON` or `EOF`.  Each pass of the loop strictly decreases
`pMeasure` (`pMeasure_advance`), so `pMeasure st + 1` passes always
reach the exit condition; `skipAux_stable` shows the cut-off is never
hit. -/
def skipToStatementEnd (st : PState) : PState :=
  skipAux (pMeasure st + 1) st

/-- `parser.advanceIfPeekIs`: advance on a peek match; otherwise
record the expectation error and run statement-skip recovery. -/
def advanceIfPeekIs (t : TokenType) (st : PState) : Bool × PState :=
  if tokenIs st.peek t then (true, advanceToken st)
  else
    (false, skipToStatementEnd (addError st
      ("expected next token to be " ++ t.str ++ ", got " ++
        st.peek.type.str ++ " instead")))

/-- Go's `%q` verb on a string with no characters needing escapes
(the only literals reaching it are digit runs from `readNumber`). -/
def goQuote (s : String) : String :=
  "\"" ++ s ++ "\""

/-! ### Model of `strconv.ParseInt(s, 0, 64)`

Base `0` means prefix detection: `0b`/`0o`/`0x` (any case) select
binary/octal/hexadecimal, a bare leading `0` selects octal, otherwise
decimal.  A syntax error (empty digits, invalid digit for the base) or
a range error (outside the signed 64-bit range, including overflow of
the intermediate unsigned accumulation past `2^64-1`) both yield a
non-nil Go error, modelled as `none`.  Go additionally permits
well-placed underscores in base-0 mode; `readNumber` only ever
produces bare digit runs, so underscores cannot occur here and are
rejected. -/

/-- The `lower(c)` helper of Go `strconv` (`c | ('x' - 'X')`). -/
def lowerC (c : Char) : Char :=
  Char.ofNat (c.toNat ||| 32)

/-- One digit's value, as in Go `strconv.ParseUint`'s loop. -/
def goDigitVal (c : Char) : Option Nat :=
  if 48 ≤ c.toNat ∧ c.toNat ≤ 57 then some (c.toNat - 48)
  else if 97 ≤ (lowerC c).toNat ∧ (lowerC c).toNat ≤ 122 then
    some ((lowerC c).toNat - 97 + 10)
  else none

/-- The accumulation loop of Go `strconv.ParseUint` with `maxVal` the
largest representable value: digit invalid for the base or overflow
past `maxVal` is an error. -/
def goDigits (base maxVal : Nat) : Nat → List Char → Option Nat
  | n, [] => some n
  | n, c :: cs =>
    match goDigitVal c with
    | none => none
    | some d =>
      if base ≤ d then none
      else if maxVal < n * base + d then none
      else goDigits base maxVal (n * base + d) cs

/-- Go `strconv.ParseUint(·, 0, 64)` after sign stripping: base
detection from the `0`/`0b`/`0o`/`0x` prefixes, then accumulation. -/
def goParseUintBase0 (cs : List Char) : Option Nat :=
  match cs with
  | [] => none
  | c :: cs1 =>
    if c = '0' then
      match cs1 with
      | c2 :: cs2 =>
        if lowerC c2 = 'b' ∧ cs2 ≠ [] then goDigits 2 (2 ^ 64 - 1) 0 cs2
        else if lowerC c2 = 'o' ∧ cs2 ≠ [] then goDigits 8 (2 ^ 64 - 1) 0 cs2
        else if lowerC c2 = 'x' ∧ cs2 ≠ [] then goDigits 16 (2 ^ 64 - 1) 0 cs2
        else goDigits 8 (2 ^ 64 - 1) 0 (c2 :: cs2)
      | [] => goDigits 8 (2 ^ 64 - 1) 0 []
    else goDigits 10 (2 ^ 64 - 1) 0 (c :: cs1)

/-- Go `strconv.ParseInt(s, 0, 64)`: optional sign, unsigned parse,
then the signed 64-bit range checks (`cutoff = 2^63`: a positive
value must stay below the cutoff, a negated one may reach it). -/
def goParseInt (s : String) : Option Int :=
  match s.data with
  | [] => none
  | c :: cs =>
    match goParseUintBase0 (if c = '+' ∨ c = '-' then cs else c :: cs) with
    | none => none
    | some un =>
      if c = '-' then
        if 2 ^ 63 < un then none else some (-(un : Int))
      else if 2 ^ 63 ≤ un then none
      else some (un : Int)

/-- `parser.parseIntegerLiteral`: `strconv.ParseInt(literal, 0, 64)`;
on error, record `"could not parse %q as integer"` and return nil. -/
def parseIntegerLiteral (st : PState) : Option Expression × PState :=
  match goParseInt st.current.literal with
  | none =>
    (none, addError st
      ("could not parse " ++ goQuote st.current.literal ++ " as integer"))
  | some v => (some (.intE st.current v), st)

/-- `parser.parseIdentifier`. -/
def parseIdentifier (st : PState) : Option Expression × PState :=
  (some (.identE st.current st.current.literal), st)

/-- `parser.parseBoolean`. -/
def parseBoolean (st : PState) : Option Expression × PState :=
  (some (.boolE st.current (tokenIs st.current .TRUE)), st)

/-- `parser.parseLetStatement`: require `IDENT`, require `ASSIGN`,
skip to the statement end; `value` is left nil (see the source TODO). -/
def parseLetStatement (st : PState) : Option Stmt × PState :=
  let tok := st.current
  match advanceIfPeekIs .IDENT st with
  | (false, st1) => (none, st1)
  | (true, st1) =>
    let nameTok := st1.current
    let nameVal := st1.current.literal
    match advanceIfPeekIs .ASSIGN st1 with
    | (false, st2) => (none, st2)
    | (true, st2) => (some (.letS tok nameTok nameVal none), skipToStatementEnd st2)

/-- `parser.parseReturnStatement`: skip to the statement end; `value`
is left nil. -/
def parseReturnStatement (st : PState) : Option Stmt × PState :=
  (some (.retS st.current none), skipToStatementEnd st)

/-- Which token kinds have a registered infix handler
(`registerInfix` calls in `parser.New`). -/
def hasInfixFn : TokenType → Bool
  | .PLUS | .MINUS | .ASTERISK | .SLASH | .GT | .LT | .EQ | .NOT_EQ => true
  | _ => false

/-- Which token kinds have a registered prefix handler
(`registerPrefix` calls in `parser.New`). -/
def hasPrefixFn : TokenType → Bool
  | .IDENT | .INT | .BANG | .MINUS | .TRUE | .FALSE | .LPAREN | .IF => true
  | _ => false

mutual

/-- `parser.parseExpression`: prefix dispatch on `current`, then the
infix climb loop (`parseExpLoop`).  The outer `Option` is the fuel;
the Go function's nil results are the inner `Option`. -/
def parseExpression : Nat → Nat → PState → Option (Option Expression × PState)
  | 0, _, _ => none
  | fuel + 1, prec, st =>
    match st.current.type with
    | .IDENT =>
      match parseIdentifier st with
      | (e, st1) => parseExpLoop fuel prec e st1
    | .INT =>
      match parseIntegerLiteral st with
      | (e, st1) => parseExpLoop fuel prec e st1
    | .BANG =>
      match parsePrefixExpression fuel st with
      | none => none
      | some (e, st1) => parseExpLoop fuel prec (some e) st1
    | .MINUS =>
      match parsePrefixExpression fuel st with
      | none => none
      | some (e, st1) => parseExpLoop fuel prec (some e) st1
    | .TRUE =>
      match parseBoolean st with
      | (e, st1) => parseExpLoop fuel prec e st1
    | .FALSE =>
      match parseBoolean st with
      | (e, st1) => parseExpLoop fuel prec e st1
    | .LPAREN =>
      match parseGroupedExpression fuel st with
      | none => none
      | some (e, st1) => parseExpLoop fuel prec e st1
    | .IF =>
      match parseIfExpression fuel st with
      | none => none
      | some (e, st1) => parseExpLoop fuel prec e st1
    | t =>
      some (none, addError st ("no prefix parse function for " ++ t.str ++ " found"))

/-- The `for` loop of `parser.parseExpression`: while `peek` is not a
`SEMICOLON` and the context precedence is strictly below the peek
precedence, and an infix handler exists, pull the operator in. -/
def parseExpLoop : Nat → Nat → Option Expression → PState →
    Option (Option Expression × PState)
  | 0, _, _, _ => none
  | fuel + 1, prec, left, st =>
    if tokenIs st.peek .SEMICOLON then some (left, st)
    else if prec < tokenPrecedence st.peek.type then
      if hasInfixFn st.peek.type then
        match parseInfixExpression fuel left (advanceToken st) with
        | none => none
        | some (e, st1) => parseExpLoop fuel prec (some e) st1
      else some (left, st)
    else some (left, st)

/-- `parser.parsePrefixExpression`: capture operator, advance, parse
the operand at precedence `PREFIX`. -/
def parsePrefixExpression : Nat → PState → Option (Expression × PState)
  | 0, _ => none
  | fuel + 1, st =>
    match parseExpression fuel PREFIX (advanceToken st) with
    | none => none
    | some (r, st1) => some (.prefixE st.current st.current.literal r, st1)

/-- `parser.parseInfixExpression`: capture operator and its
precedence, advance, parse the right operand at that precedence. -/
def parseInfixExpression : Nat → Option Expression → PState →
    Option (Expression × PState)
  | 0, _, _ => none
  | fuel + 1, left, st =>
    match parseExpression fuel (tokenPrecedence st.current.type)
        (advanceToken st) with
    | none => none
    | some (r, st1) =>
      some (.infixE st.current left st.current.literal r, st1)

/-- `parser.parseGroupedExpression`: advance past `(`, parse at
`LOWEST`, require `RPAREN`. -/
def parseGroupedExpression : Nat → PState → Option (Option Expression × PState)
  | 0, _ => none
  | fuel + 1, st =>
    match parseExpression fuel LOWEST (advanceToken st) with
    | none => none
    | some (e, st1) =>
      match advanceIfPeekIs .RPAREN st1 with
      | (false, st2) => some (none, st2)
      | (true, st2) => some (e, st2)

/-- `parser.parseIfExpression`. -/
def parseIfExpression : Nat → PState → Option (Option Expression × PState)
  | 0, _ => none
  | fuel + 1, st =>
    let tok := st.current
    match advanceIfPeekIs .LPAREN st with
    | (false, st1) => some (none, st1)
    | (true, st1) =>
      match parseExpression fuel LOWEST (advanceToken st1) with
      | none => none
      | some (cond, st2) =>
        match advanceIfPeekIs .RPAREN st2 with
        | (false, st3) => some (none, st3)
        | (true, st3) =>
          match advanceIfPeekIs .LBRACE st3 with
          | (false, st4) => some (none, st4)
          | (true, st4) =>
            match parseBlockStatement fuel st4 with
            | none => none
            | some (conseq, st5) =>
              if tokenIs st5.peek .ELSE then
                match advanceIfPeekIs .LBRACE (advanceToken st5) with
                | (false, st6) => some (none, st6)
                | (true, st6) =>
                  match parseBlockStatement fuel st6 with
                  | none => none
                  | some (alt, st7) =>
                    some (some (.ifE tok cond conseq (some alt)), st7)
              else some (some (.ifE tok cond conseq none), st5)

/-- `parser.parseBlockStatement`: capture the `{` token, advance past
it, then the statement loop. -/
def parseBlockStatement : Nat → PState → Option (Block × PState)
  | 0, _ => none
  | fuel + 1, st =>
    match parseBlockLoop fuel [] (advanceToken st) with
    | none => none
    | some (stmts, st1) => some (.mk st.current stmts, st1)

/-- The `for` loop of `parser.parseBlockStatement`: parse statements
until `current` is `}` or `EOF`, advancing after each. -/
def parseBlockLoop : Nat → List Stmt → PState → Option (List Stmt × PState)
  | 0, _, _ => none
  | fuel + 1, acc, st =>
    if tokenIs st.current .RBRACE || tokenIs st.current .EOF then
      some (acc, st)
    else
      match parseStatement fuel st with
      | none => none
      | some (sOpt, st1) =>
        parseBlockLoop fuel
          (match sOpt with
           | none => acc
           | some s => acc ++ [s])
          (advanceToken st1)

/-- `parser.parseStatement`: dispatch on `current.Type`. -/
def parseStatement : Nat → PState → Option (Option Stmt × PState)
  | 0, _ => none
  | fuel + 1, st =>
    match st.current.type with
    | .LET => some (parseLetStatement st)
    | .RETURN => some (parseReturnStatement st)
    | _ =>
      match parseExpressionStatement fuel st with
      | none => none
      | some (s, st1) => some (some s, st1)

/-- `parser.parseExpressionStatement`: parse at `LOWEST`; an optional
trailing `SEMICOLON` is consumed.  The statement itself is always
returned (possibly with a nil expression). -/
def parseExpressionStatement : Nat → PState → Option (Stmt × PState)
  | 0, _ => none
  | fuel + 1, st =>
    match parseExpression fuel LOWEST st with
    | none => none
    | some (e, st1) =>
      some (.exprS st.current e,
        if tokenIs st1.peek .SEMICOLON then advanceToken st1 else st1)

/-- The `for` loop of `parser.ParseProgram`: until `current` is `EOF`,
parse a statement, append it when non-nil, advance one token. -/
def parseProgramLoop : Nat → List Stmt → PState → Option (List Stmt × PState)
  | 0, _, _ => none
  | fuel + 1, acc, st =>
    if tokenIs st.current .EOF then some (acc, st)
    else
      match parseStatement fuel st with
      | none => none
      | some (sOpt, st1) =>
        parseProgramLoop fuel
          (match sOpt with
           | none => acc
           | some s => acc ++ [s])
          (advanceToken st1)

end

/-- `parser.ParseProgram` over an already produced token stream. -/
def parseProgram (fuel : Nat) (toks : List Token) : Option (List Stmt × PState) :=
  parseProgramLoop fuel [] (mkPState toks)

/-- The full pipeline of the parser tests' `parseInput`: lex the
source, parse the token stream. -/
def parseInput (fuel : Nat) (s : String) : Option (List Stmt × PState) :=
  parseProgram fuel (tokenize s.data)

/-! ## Well-formedness of child pointers

`exprOk` holds when every `InfixExpression` node in a tree has
non-null `Left` and `Right` and every `PrefixExpression` node a
non-null `Right` (the other nullable slots are unconstrained). -/

mutual
def exprOk : Expression → Bool
  | .identE .. => true
  | .intE .. => true
  | .boolE .. => true
  | .prefixE _ _ r =>
    match r with
    | none => false
    | some e => exprOk e
  | .infixE _ l _ r =>
    (match l with
     | none => false
     | some e => exprOk e) &&
    (match r with
     | none => false
     | some e => exprOk e)
  | .ifE _ cond conseq alt =>
    (match cond with
     | none => true
     | some e => exprOk e) &&
    blockOk conseq &&
    (match alt with
     | none => true
     | some b => blockOk b)

def stmtOk : Stmt → Bool
  | .letS _ _ _ v =>
    match v with
    | none => true
    | some e => exprOk e
  | .retS _ v =>
    match v with
    | none => true
    | some e => exprOk e
  | .exprS _ e =>
    match e with
    | none => true
    | some e1 => exprOk e1

def blockOk : Block → Bool
  | .mk _ stmts => stmtsOk stmts

def stmtsOk : List Stmt → Bool
  | [] => true
  | s :: rest => stmtOk s && stmtsOk rest
end

/-- The error list only ever grows by appending (`addError`). -/
def errExt (a b : List String) : Prop :=
  ∃ t, b = a ++ t

/-- The value of a digit run accumulated in a base (the reference
value the integer-literal claims compare against). -/
def runVal (base : Nat) (n : Nat) (ds : List Char) : Nat :=
  ds.foldl (fun a c => a * base + (c.toNat - 48)) n

/-- Decimal value of a digit run. -/
def decVal (ds : List Char) : Nat :=
  runVal 10 0 ds

/-- Octal value of a digit run. -/
def octVal (ds : List Char) : Nat :=
  runVal 8 0 ds

/-- The ordered pairs of registered infix operators of equal
precedence: the `+`/`-` pairs, the `*`/`/` pairs, the `==`/`!=`
pairs, and the `<`/`>` pairs. -/
def eqPrecPairs : List (TokenType × TokenType) :=
  [(.PLUS, .PLUS), (.PLUS, .MINUS), (.MINUS, .PLUS), (.MINUS, .MINUS),
   (.ASTERISK, .ASTERISK), (.ASTERISK, .SLASH), (.SLASH, .ASTERISK),
   (.SLASH, .SLASH),
   (.EQ, .EQ), (.EQ, .NOT_EQ), (.NOT_EQ, .EQ), (.NOT_EQ, .NOT_EQ),
   (.LT, .LT), (.LT, .GT), (.GT, .LT), (.GT, .GT)]

/-! ## Theorems: lexer-level facts and parser-state helpers -/

theorem lookupIdent_ne_EOF (s : String) : lookupIdent s ≠ .EOF := by
  unfold lookupIdent
  split_ifs <;> simp

/-- `Char` order is byte order on code points. -/
theorem char_le_iff (a b : Char) : a ≤ b ↔ a.toNat ≤ b.toNat := Iff.rfl

/-- Letters (per `lexer.isLetter`) are never digits. -/
theorem isLetter_isDigit_false (c : Char) (h : isLetter c = true) :
    isDigit c = false := by
  unfold isLetter at h
  unfold isDigit
  simp only [Bool.or_eq_true, Bool.and_eq_true, decide_eq_true_eq, beq_iff_eq,
    char_le_iff] at h
  simp only [Bool.and_eq_false_iff, decide_eq_false_iff_not, not_le, char_le_iff]
  have e1 : ('a' : Char).toNat = 97 := rfl
  have e2 : ('z' : Char).toNat = 122 := rfl
  have e3 : ('A' : Char).toNat = 65 := rfl
  have e4 : ('Z' : Char).toNat = 90 := rfl
  have e5 : ('0' : Char).toNat = 48 := rfl
  have e6 : ('9' : Char).toNat = 57 := rfl
  rcases h with ⟨h1, h2⟩ | ⟨h1, h2⟩ | rfl
  · right; omega
  · right; omega
  · decide

/-- The `default` arm of the Go switch fires exactly on letters
(`cletter`) and digits (`cdigit`): the branch enumeration agrees with
the character predicates. -/
theorem classify_spec (c : Char) :
    (classify c = .cletter ↔ isLetter c = true) ∧
      (classify c = .cdigit ↔ isDigit c = true) := by
  by_cases h1 : c = '='
  · subst h1; decide
  by_cases h2 : c = '+'
  · subst h2; decide
  by_cases h3 : c = '('
  · subst h3; decide
  by_cases h4 : c = ')'
  · subst h4; decide
  by_cases h5 : c = '{'
  · subst h5; decide
  by_cases h6 : c = '}'
  · subst h6; decide
  by_cases h7 : c = ','
  · subst h7; decide
  by_cases h8 : c = ';'
  · subst h8; decide
  by_cases h9 : c = '-'
  · subst h9; decide
  by_cases h10 : c = '/'
  · subst h10; decide
  by_cases h11 : c = '*'
  · subst h11; decide
  by_cases h12 : c = '<'
  · subst h12; decide
  by_cases h13 : c = '>'
  · subst h13; decide
  by_cases h14 : c = '!'
  · subst h14; decide
  by_cases h15 : c = Char.ofNat 0
  · subst h15; decide
  unfold classify
  rw [if_neg h1, if_neg h2, if_neg h3, if_neg h4, if_neg h5, if_neg h6,
    if_neg h7, if_neg h8, if_neg h9, if_neg h10, if_neg h11, if_neg h12,
    if_neg h13, if_neg h14, if_neg h15]
  by_cases hl : isLetter c = true
  · rw [if_pos hl]; simp [hl, isLetter_isDigit_false c hl]
  rw [if_neg hl]
  by_cases hd : isDigit c = true
  · rw [if_pos hd]; simp [hl, hd]
  · rw [if_neg hd]; simp [hl, hd]

theorem classify_eq_cletter (c : Char) (h : classify c = .cletter) :
    isLetter c = true :=
  (classify_spec c).1.mp h

theorem classify_eq_cdigit (c : Char) (h : classify c = .cdigit) :
    isDigit c = true :=
  (classify_spec c).2.mp h

theorem classify_of_isLetter (c : Char) (h : isLetter c = true) :
    classify c = .cletter :=
  (classify_spec c).1.mpr h

/-- Remaining input never grows across the switch body. -/
theorem nextTokenCons_length_le (c : Char) (rest : List Char) :
    (nextTokenCons c rest).2.length ≤ rest.length + 1 := by
  have hL : (List.dropWhile isLetter rest).length ≤ rest.length :=
    (List.dropWhile_sublist isLetter).length_le
  have hD : (List.dropWhile isDigit rest).length ≤ rest.length :=
    (List.dropWhile_sublist isDigit).length_le
  have hT : rest.tail.length ≤ rest.length := by
    cases rest <;> simp
  unfold nextTokenCons
  cases hcl : classify c
  case cletter =>
    have hlet := classify_eq_cletter c hcl
    simp only [List.dropWhile_cons_of_pos hlet]
    omega
  case cdigit =>
    have hdig := classify_eq_cdigit c hcl
    simp only [List.dropWhile_cons_of_pos hdig]
    omega
  all_goals first
    | (simp only []; omega)
    | (split_ifs <;> simp <;> omega)

/-- A non-`EOF` result of the switch body consumed at least the
current character. -/
theorem nextTokenCons_length_lt (c : Char) (rest : List Char)
    (h : (nextTokenCons c rest).1.type ≠ .EOF) :
    (nextTokenCons c rest).2.length < rest.length + 1 := by
  have hL : (List.dropWhile isLetter rest).length ≤ rest.length :=
    (List.dropWhile_sublist isLetter).length_le
  have hD : (List.dropWhile isDigit rest).length ≤ rest.length :=
    (List.dropWhile_sublist isDigit).length_le
  have hT : rest.tail.length ≤ rest.length := by
    cases rest <;> simp
  revert h
  unfold nextTokenCons
  cases hcl : classify c
  case cletter =>
    have hlet := classify_eq_cletter c hcl
    simp only [List.dropWhile_cons_of_pos hlet]
    omega
  case cdigit =>
    have hdig := classify_eq_cdigit c hcl
    simp only [List.dropWhile_cons_of_pos hdig]
    omega
  all_goals first
    | (intro h; simp only []; omega)
    | (split_ifs <;> intro h <;> simp <;> omega)

/-- `nextToken` at the fully-consumed state: the `0` sentinel with
`nextPos` past the end yields `Token{EOF, ""}`, and `readChar` keeps
the state past the end. -/
theorem nextToken_nil : nextToken [] = (⟨.EOF, ""⟩, []) := rfl

/-- A non-`EOF` token consumes at least one input byte. -/
theorem nextToken_lt (s : List Char) (h : (nextToken s).1.type ≠ .EOF) :
    (nextToken s).2.length < s.length := by
  cases hd : s.dropWhile isWs with
  | nil =>
    exfalso
    apply h
    show (nextTokenAt (s.dropWhile isWs)).1.type = .EOF
    rw [hd]
    rfl
  | cons c rest =>
    have hsub := (List.dropWhile_sublist isWs (l := s)).length_le
    rw [hd] at hsub
    have hne : (nextTokenCons c rest).1.type ≠ .EOF := by
      intro hEOF
      apply h
      show (nextTokenAt (s.dropWhile isWs)).1.type = .EOF
      rw [hd]
      exact hEOF
    have hlt := nextTokenCons_length_lt c rest hne
    show (nextTokenAt (s.dropWhile isWs)).2.length < s.length
    rw [hd]
    show (nextTokenCons c rest).2.length < s.length
    simp only [List.length_cons] at hsub
    omega

/-- Any fuel beyond the input length yields the same stream: the
cut-off in `tokenize` is immaterial. -/
theorem tokenizeAux_stable (fuel : Nat) :
    ∀ (s : List Char) (fuel' : Nat), s.length < fuel → s.length < fuel' →
      tokenizeAux fuel s = tokenizeAux fuel' s := by
  induction fuel with
  | zero => intro s fuel' h _; omega
  | succ fuel ih =>
    intro s fuel' h h'
    cases fuel' with
    | zero => omega
    | succ fuel' =>
      show (if (nextToken s).1.type = .EOF then []
            else (nextToken s).1 :: tokenizeAux fuel (nextToken s).2) =
          (if (nextToken s).1.type = .EOF then []
            else (nextToken s).1 :: tokenizeAux fuel' (nextToken s).2)
      split
      · rfl
      · rename_i he
        have hlt := nextToken_lt s he
        rw [ih (nextToken s).2 fuel' (by omega) (by omega)]

/-- At most `N` non-`EOF` tokens come out of an input of length `N`. -/
theorem tokenize_length_le (s : List Char) : (tokenize s).length ≤ s.length := by
  have H : ∀ fuel (s : List Char), (tokenizeAux fuel s).length ≤ s.length := by
    intro fuel
    induction fuel with
    | zero => intro s; simp [tokenizeAux]
    | succ fuel ih =>
      intro s
      show (if (nextToken s).1.type = .EOF then []
            else (nextToken s).1 :: tokenizeAux fuel (nextToken s).2).length ≤ s.length
      split
      · simp
      · rename_i he
        have hlt := nextToken_lt s he
        have h2 := ih (nextToken s).2
        simp only [List.length_cons]
        omega
  exact H (s.length + 1) s

theorem nthToken_nil (n : Nat) : nthToken [] n = ⟨.EOF, ""⟩ := by
  induction n with
  | zero => rfl
  | succ n ih =>
    show nthToken (nextToken []).2 n = _
    rw [nextToken_nil]
    exact ih

theorem pMeasure_advance (st : PState) (h : st.current.type ≠ .EOF) :
    pMeasure (advanceToken st) < pMeasure st := by
  unfold pMeasure advanceToken
  cases hr : st.rest with
  | nil => simp [pullToken, h]
  | cons t ts =>
    simp only [pullToken, List.length_cons]
    split_ifs <;> simp_all <;> omega

/-- Any fuel beyond `pMeasure` yields the same state: the cut-off in
`skipToStatementEnd` is immaterial. -/
theorem skipAux_stable (fuel : Nat) :
    ∀ (st : PState) (fuel' : Nat), pMeasure st < fuel → pMeasure st < fuel' →
      skipAux fuel st = skipAux fuel' st := by
  induction fuel with
  | zero => intro st fuel' h _; omega
  | succ fuel ih =>
    intro st fuel' h h'
    cases fuel' with
    | zero => omega
    | succ fuel' =>
      show (if st.current.type = .SEMICOLON ∨ st.current.type = .EOF then st
            else skipAux fuel (advanceToken st)) =
          (if st.current.type = .SEMICOLON ∨ st.current.type = .EOF then st
            else skipAux fuel' (advanceToken st))
      split
      · rfl
      · rename_i hc
        push_neg at hc
        have hlt := pMeasure_advance st hc.2
        rw [ih (advanceToken st) fuel' (by omega) (by omega)]

theorem lookupIdent_IDENT_iff (w : String) :
    lookupIdent w = .IDENT ↔
      w ∉ (["fn", "let", "true", "false", "if", "else", "return"] : List String) := by
  unfold lookupIdent
  split_ifs <;> simp_all

theorem nextTokenCons_IDENT (c : Char) (rest : List Char)
    (h : (nextTokenCons c rest).1.type = .IDENT) :
    (nextTokenCons c rest).1.literal = String.mk ((c :: rest).takeWhile isLetter) ∧
      lookupIdent (String.mk ((c :: rest).takeWhile isLetter)) = .IDENT := by
  cases hcl : classify c
  case cletter =>
    simp only [nextTokenCons, hcl] at h
    refine ⟨?_, h⟩
    simp only [nextTokenCons, hcl]
  case ceq =>
    simp only [nextTokenCons, hcl] at h
    split at h <;> simp at h
  case cbang =>
    simp only [nextTokenCons, hcl] at h
    split at h <;> simp at h
  all_goals (simp only [nextTokenCons, hcl] at h; simp at h)

/-- C10: the lexer hands out `IDENT` only for non-keyword literals;
a maximal letter run is tokenized through `LookupIdent`, which maps
exactly the seven keywords and defaults to `IDENT`. -/
theorem C10_keyword_lookup :
    (∀ s : List Char, (nextToken s).1.type = .IDENT →
        lookupIdent (nextToken s).1.literal = .IDENT ∧
          (nextToken s).1.literal ∉
            (["fn", "let", "true", "false", "if", "else", "return"] : List String)) ∧
      (∀ (c : Char) (rest : List Char), isLetter c = true →
        nextTokenAt (c :: rest) =
          (⟨lookupIdent (String.mk ((c :: rest).takeWhile isLetter)),
              String.mk ((c :: rest).takeWhile isLetter)⟩,
            (c :: rest).dropWhile isLetter)) ∧
      lookupIdent "fn" = .FUNCTION ∧ lookupIdent "let" = .LET ∧
      lookupIdent "true" = .TRUE ∧ lookupIdent "false" = .FALSE ∧
      lookupIdent "if" = .IF ∧ lookupIdent "else" = .ELSE ∧
      lookupIdent "return" = .RETURN ∧
      (∀ w : String,
        w ∉ (["fn", "let", "true", "false", "if", "else", "return"] : List String) →
          lookupIdent w = .IDENT) := by
  refine ⟨?_, ?_, rfl, rfl, rfl, rfl, rfl, rfl, rfl, ?_⟩
  · intro s h
    cases hd : s.dropWhile isWs with
    | nil =>
      exfalso
      have hEOF : (nextToken s).1.type = .EOF := by
        unfold nextToken
        rw [hd]
        rfl
      exact absurd (hEOF.symm.trans h) (by decide)
    | cons c rest =>
      have e : nextToken s = nextTokenCons c rest := by
        unfold nextToken
        rw [hd]
        rfl
      rw [e] at h ⊢
      have h3 := nextTokenCons_IDENT c rest h
      rw [h3.1]
      exact ⟨h3.2, (lookupIdent_IDENT_iff _).mp h3.2⟩
  · intro c rest hlet
    show nextTokenCons c rest = _
    unfold nextTokenCons
    rw [classify_of_isLetter c hlet]
  · intro w hw
    exact (lookupIdent_IDENT_iff w).mpr hw

/-- C8: once the lexer is past its input (`currentChar` holds the `0`
sentinel with `nextPos` past the end — the empty unconsumed list),
`NextToken` yields `Token{EOF, ""}` and preserves that state, so every
subsequent call yields `EOF` again; an input whose remainder is
whitespace reaches exactly that terminal behaviour. -/
theorem C8_eof_forever :
    nextToken [] = (⟨.EOF, ""⟩, []) ∧
      (∀ n : Nat, nthToken [] n = ⟨.EOF, ""⟩) ∧
      (∀ s : List Char, s.dropWhile isWs = [] → nextToken s = (⟨.EOF, ""⟩, [])) := by
  refine ⟨rfl, nthToken_nil, ?_⟩
  intro s h
  show nextTokenAt (s.dropWhile isWs) = _
  rw [h]
  rfl

theorem C8_witness :
    [' ', '\t'].dropWhile isWs = ([] : List Char) ∧
      nextToken [' ', '\t'] = (⟨.EOF, ""⟩, []) :=
  ⟨by decide, C8_eof_forever.2.2 [' ', '\t'] (by decide)⟩

/-- C9: `NextToken` is total in this model; a non-`EOF` token consumes
at least one byte of the remaining input, so an input of length `N`
yields at most `N` tokens before the stream is exhausted. -/
theorem C9_termination (s : List Char) :
    ((nextToken s).1.type ≠ .EOF → (nextToken s).2.length < s.length) ∧
      (tokenize s).length ≤ s.length :=
  ⟨nextToken_lt s, tokenize_length_le s⟩

theorem C9_witness :
    (nextToken ['a', 'b']).2.length < 2 ∧ (tokenize ['a', 'b']).length ≤ 2 :=
  ⟨(C9_termination ['a', 'b']).1 (by decide), (C9_termination ['a', 'b']).2⟩

/-- C2: the four precedence scenarios of **S4**: parsing and
re-rendering produces the fully parenthesized grouping dictated by the
precedence table, with no recorded errors. -/
theorem C2_precedence_strings :
    (parseInput 100 "-a * b").map (fun r => (renderProgram r.1, r.2.errors)) =
        some ("((-a) * b)", []) ∧
      (parseInput 100 "a + b * c + d / e - f").map
          (fun r => (renderProgram r.1, r.2.errors)) =
        some ("(((a + (b * c)) + (d / e)) - f)", []) ∧
      (parseInput 100 "3 > 5 == false").map
          (fun r => (renderProgram r.1, r.2.errors)) =
        some ("((3 > 5) == false)", []) ∧
      (parseInput 100 "!(true == true)").map
          (fun r => (renderProgram r.1, r.2.errors)) =
        some ("(!(true == true))", []) :=
  ⟨by decide, by decide, by decide, by decide⟩

/-- C4: the malformed input of **S3** produces exactly three
structural-expectation errors, one per malformed `let` statement, and
the parse runs to completion: the final state sits at `EOF` with an
empty program (each failed statement was skipped). -/
theorem C4_error_recovery :
    parseInput 100 "let x 5;\nlet = 10;\nlet 838383;" =
      some ([], ⟨⟨.EOF, ""⟩, ⟨.EOF, ""⟩, [],
        ["expected next token to be =, got INT instead",
         "expected next token to be IDENT, got = instead",
         "expected next token to be IDENT, got INT instead"]⟩) := rfl

/-- C7: **S5**: `"if (x < y) { x }"` parses to one expression
statement holding an if-expression with the expected condition,
a single-identifier consequence, no alternative, and the stated
renderings. -/
theorem C7_if_expression :
    parseInput 100 "if (x < y) { x }" =
        some ([.exprS ⟨.IF, "if"⟩ (some (.ifE ⟨.IF, "if"⟩
            (some (.infixE ⟨.LT, "<"⟩ (some (.identE ⟨.IDENT, "x"⟩ "x")) "<"
              (some (.identE ⟨.IDENT, "y"⟩ "y"))))
            (.mk ⟨.LBRACE, "\x7b"⟩
              [.exprS ⟨.IDENT, "x"⟩ (some (.identE ⟨.IDENT, "x"⟩ "x"))])
            none))],
          ⟨⟨.EOF, ""⟩, ⟨.EOF, ""⟩, [], []⟩) ∧
      Expression.render (.infixE ⟨.LT, "<"⟩ (some (.identE ⟨.IDENT, "x"⟩ "x")) "<"
        (some (.identE ⟨.IDENT, "y"⟩ "y"))) = "(x < y)" ∧
      renderProgram [.exprS ⟨.IF, "if"⟩ (some (.ifE ⟨.IF, "if"⟩
          (some (.infixE ⟨.LT, "<"⟩ (some (.identE ⟨.IDENT, "x"⟩ "x")) "<"
            (some (.identE ⟨.IDENT, "y"⟩ "y"))))
          (.mk ⟨.LBRACE, "\x7b"⟩
            [.exprS ⟨.IDENT, "x"⟩ (some (.identE ⟨.IDENT, "x"⟩ "x"))])
          none))] = "if(x < y) x" :=
  ⟨rfl, by decide, by decide⟩

/-- C6: every let statement the parser returns has a nil value (the
value expression is skipped), and `"let x = 5;"` consequently renders
as `"let x = ;"` — the framing appears, the value contributes the
empty string. -/
theorem C6_let_value_nil :
    (∀ (st : PState) (s : Stmt) (st1 : PState),
        parseLetStatement st = (some s, st1) →
          ∃ tok ntok nval, s = .letS tok ntok nval none) ∧
      (parseInput 100 "let x = 5;").map
          (fun r => (renderProgram r.1, r.2.errors)) =
        some ("let x = ;", []) := by
  constructor
  · intro st s st1 h
    simp only [parseLetStatement] at h
    cases hA : advanceIfPeekIs .IDENT st with
    | mk b1 stA =>
      rw [hA] at h
      cases b1
      · simp at h
      · simp only [] at h
        cases hB : advanceIfPeekIs .ASSIGN stA with
        | mk b2 stB =>
          rw [hB] at h
          cases b2
          · simp at h
          · simp only [Prod.mk.injEq] at h
            exact ⟨_, _, _, (Option.some.inj h.1).symm⟩
  · decide

theorem C6_witness :
    parseLetStatement (mkPState (tokenize "let x = 5;".data)) =
        (some (.letS ⟨.LET, "let"⟩ ⟨.IDENT, "x"⟩ "x" none),
          ⟨⟨.SEMICOLON, ";"⟩, ⟨.EOF, ""⟩, [], []⟩) ∧
      (∃ tok ntok nval,
        Stmt.letS ⟨.LET, "let"⟩ ⟨.IDENT, "x"⟩ "x" none =
          .letS tok ntok nval none) :=
  ⟨rfl, C6_let_value_nil.1 (mkPState (tokenize "let x = 5;".data))
    (.letS ⟨.LET, "let"⟩ ⟨.IDENT, "x"⟩ "x" none)
    ⟨⟨.SEMICOLON, ";"⟩, ⟨.EOF, ""⟩, [], []⟩ rfl⟩

theorem C10_witness :
    (lookupIdent (nextToken ['a', 'b', 'c']).1.literal = .IDENT ∧
        (nextToken ['a', 'b', 'c']).1.literal ∉
          (["fn", "let", "true", "false", "if", "else", "return"] : List String)) ∧
      nextTokenAt ['l', 'e', 't'] =
        (⟨lookupIdent (String.mk (['l', 'e', 't'].takeWhile isLetter)),
            String.mk (['l', 'e', 't'].takeWhile isLetter)⟩,
          ['l', 'e', 't'].dropWhile isLetter) :=
  ⟨C10_keyword_lookup.1 ['a', 'b', 'c'] (by decide),
    C10_keyword_lookup.2.1 'l' ['e', 't'] (by decide)⟩

/-- C3: equal-precedence registered infix operators associate to the
left: for identifiers `a`, `b`, `c` and any ordered pair of operator
kinds from the same precedence class, `parseExpression` yields
`InfixExpression(InfixExpression(a, OP1, b), OP2, c)`. -/
theorem C3_left_assoc (a b c s1 s2 : String) (o1 o2 : TokenType)
    (h : (o1, o2) ∈ eqPrecPairs) :
    parseExpression 20 LOWEST
        (mkPState [⟨.IDENT, a⟩, ⟨o1, s1⟩, ⟨.IDENT, b⟩, ⟨o2, s2⟩, ⟨.IDENT, c⟩]) =
      some (some (.infixE ⟨o2, s2⟩
          (some (.infixE ⟨o1, s1⟩ (some (.identE ⟨.IDENT, a⟩ a)) s1
            (some (.identE ⟨.IDENT, b⟩ b))))
          s2 (some (.identE ⟨.IDENT, c⟩ c))),
        ⟨⟨.IDENT, c⟩, ⟨.EOF, ""⟩, [], []⟩) := by
  fin_cases h <;> rfl

theorem C3_witness :
    ((.PLUS, .MINUS) : TokenType × TokenType) ∈ eqPrecPairs ∧
      parseExpression 20 LOWEST
          (mkPState [⟨.IDENT, "a"⟩, ⟨.PLUS, "+"⟩, ⟨.IDENT, "b"⟩,
            ⟨.MINUS, "-"⟩, ⟨.IDENT, "c"⟩]) =
        some (some (.infixE ⟨.MINUS, "-"⟩
            (some (.infixE ⟨.PLUS, "+"⟩ (some (.identE ⟨.IDENT, "a"⟩ "a")) "+"
              (some (.identE ⟨.IDENT, "b"⟩ "b"))))
            "-" (some (.identE ⟨.IDENT, "c"⟩ "c"))),
          ⟨⟨.IDENT, "c"⟩, ⟨.EOF, ""⟩, [], []⟩) :=
  ⟨by decide, C3_left_assoc "a" "b" "c" "+" "-" .PLUS .MINUS (by decide)⟩

theorem isDigit_toNat (c : Char) (h : isDigit c = true) :
    48 ≤ c.toNat ∧ c.toNat ≤ 57 := by
  unfold isDigit at h
  simp only [Bool.and_eq_true, decide_eq_true_eq, char_le_iff] at h
  exact h

theorem lowerC_digit (c : Char) (h : isDigit c = true) : lowerC c = c := by
  obtain ⟨h1, h2⟩ := isDigit_toNat c h
  unfold lowerC
  have hn : c.toNat ||| 32 = c.toNat := by
    interval_cases htn : c.toNat <;> decide
  rw [hn, Char.ofNat_toNat]

theorem lowerC_digit_ne (c : Char) (h : isDigit c = true) :
    lowerC c ≠ 'b' ∧ lowerC c ≠ 'o' ∧ lowerC c ≠ 'x' := by
  obtain ⟨h1, h2⟩ := isDigit_toNat c h
  rw [lowerC_digit c h]
  refine ⟨?_, ?_, ?_⟩ <;>
    · intro he
      rw [he] at h1 h2
      revert h1 h2
      decide

theorem digit_not_sign (c : Char) (h : isDigit c = true) :
    ¬(c = '+' ∨ c = '-') := by
  obtain ⟨h1, _⟩ := isDigit_toNat c h
  rintro (rfl | rfl) <;> revert h1 <;> decide

theorem goDigitVal_digit (c : Char) (h : isDigit c = true) :
    goDigitVal c = some (c.toNat - 48) := by
  obtain ⟨h1, h2⟩ := isDigit_toNat c h
  unfold goDigitVal
  rw [if_pos ⟨h1, h2⟩]

theorem runVal_cons (base n : Nat) (c : Char) (cs : List Char) :
    runVal base n (c :: cs) = runVal base (n * base + (c.toNat - 48)) cs := rfl

theorem runVal_nil (base n : Nat) : runVal base n [] = n := rfl

theorem runVal_ge (base : Nat) (hb : 1 ≤ base) :
    ∀ (ds : List Char) (n : Nat), n ≤ runVal base n ds := by
  intro ds
  induction ds with
  | nil => intro n; exact le_rfl
  | cons c cs ih =>
    intro n
    rw [runVal_cons]
    refine le_trans ?_ (ih (n * base + (c.toNat - 48)))
    have : n ≤ n * base := Nat.le_mul_of_pos_right n (by omega)
    omega

theorem goDigits_run (base maxVal : Nat) :
    ∀ (ds : List Char) (n : Nat),
      (∀ c ∈ ds, isDigit c = true ∧ c.toNat - 48 < base) →
      runVal base n ds ≤ maxVal →
      goDigits base maxVal n ds = some (runVal base n ds) := by
  intro ds
  induction ds with
  | nil => intro n _ _; rfl
  | cons c cs ih =>
    intro n hds hbound
    obtain ⟨hdig, hlt⟩ := hds c (List.mem_cons_self c cs)
    have hb1 : 1 ≤ base := by omega
    show (match goDigitVal c with
          | none => none
          | some d =>
            if base ≤ d then none
            else if maxVal < n * base + d then none
            else goDigits base maxVal (n * base + d) cs) = _
    rw [goDigitVal_digit c hdig]
    rw [runVal_cons] at hbound ⊢
    show (if base ≤ c.toNat - 48 then none
          else if maxVal < n * base + (c.toNat - 48) then none
          else goDigits base maxVal (n * base + (c.toNat - 48)) cs) = _
    have hge : n * base + (c.toNat - 48) ≤ runVal base (n * base + (c.toNat - 48)) cs :=
      runVal_ge base hb1 cs _
    rw [if_neg (by omega), if_neg (by omega)]
    exact ih _ (fun x hx => hds x (List.mem_cons_of_mem c hx)) hbound

theorem goDigits_bad (base maxVal : Nat) :
    ∀ (ds : List Char) (n : Nat),
      (∀ c ∈ ds, isDigit c = true) →
      (∃ c ∈ ds, base ≤ c.toNat - 48) →
      goDigits base maxVal n ds = none := by
  intro ds
  induction ds with
  | nil => intro n _ hbad; simp at hbad
  | cons c cs ih =>
    intro n hds hbad
    have hdig := hds c (List.mem_cons_self c cs)
    show (match goDigitVal c with
          | none => none
          | some d =>
            if base ≤ d then none
            else if maxVal < n * base + d then none
            else goDigits base maxVal (n * base + d) cs) = _
    rw [goDigitVal_digit c hdig]
    show (if base ≤ c.toNat - 48 then none
          else if maxVal < n * base + (c.toNat - 48) then none
          else goDigits base maxVal (n * base + (c.toNat - 48)) cs) = _
    by_cases hc : base ≤ c.toNat - 48
    · rw [if_pos hc]
    · rw [if_neg hc]
      by_cases hov : maxVal < n * base + (c.toNat - 48)
      · rw [if_pos hov]
      · rw [if_neg hov]
        obtain ⟨x, hx, hxval⟩ := hbad
        rcases List.mem_cons.mp hx with rfl | hx2
        · omega
        · exact ih _ (fun y hy => hds y (List.mem_cons_of_mem c hy)) ⟨x, hx2, hxval⟩

theorem goParseUint_nz (c : Char) (cs : List Char) (h0 : c ≠ '0') :
    goParseUintBase0 (c :: cs) = goDigits 10 (2 ^ 64 - 1) 0 (c :: cs) := by
  show (if c = '0' then
          (match cs with
           | c2 :: cs2 =>
             if lowerC c2 = 'b' ∧ cs2 ≠ [] then goDigits 2 (2 ^ 64 - 1) 0 cs2
             else if lowerC c2 = 'o' ∧ cs2 ≠ [] then goDigits 8 (2 ^ 64 - 1) 0 cs2
             else if lowerC c2 = 'x' ∧ cs2 ≠ [] then goDigits 16 (2 ^ 64 - 1) 0 cs2
             else goDigits 8 (2 ^ 64 - 1) 0 (c2 :: cs2)
           | [] => goDigits 8 (2 ^ 64 - 1) 0 [])
        else goDigits 10 (2 ^ 64 - 1) 0 (c :: cs)) = _
  rw [if_neg h0]

theorem goParseUint_zero (ds : List Char) (hd : ∀ c ∈ ds, isDigit c = true) :
    goParseUintBase0 ('0' :: ds) = goDigits 8 (2 ^ 64 - 1) 0 ds := by
  cases ds with
  | nil => rfl
  | cons c2 cs2 =>
    have hc2 : isDigit c2 = true := hd c2 (List.mem_cons_self c2 cs2)
    have hne := lowerC_digit_ne c2 hc2
    show (if lowerC c2 = 'b' ∧ cs2 ≠ [] then goDigits 2 (2 ^ 64 - 1) 0 cs2
          else if lowerC c2 = 'o' ∧ cs2 ≠ [] then goDigits 8 (2 ^ 64 - 1) 0 cs2
          else if lowerC c2 = 'x' ∧ cs2 ≠ [] then goDigits 16 (2 ^ 64 - 1) 0 cs2
          else goDigits 8 (2 ^ 64 - 1) 0 (c2 :: cs2)) = _
    rw [if_neg (fun hx => hne.1 hx.1), if_neg (fun hx => hne.2.1 hx.1),
      if_neg (fun hx => hne.2.2 hx.1)]

theorem goParseInt_dec (c : Char) (cs : List Char)
    (hd : ∀ x ∈ c :: cs, isDigit x = true) (h0 : c ≠ '0')
    (hb : decVal (c :: cs) < 2 ^ 63) :
    goParseInt (String.mk (c :: cs)) = some (decVal (c :: cs) : Int) := by
  have hdigc := hd c (List.mem_cons_self c cs)
  show (match goParseUintBase0 (if c = '+' ∨ c = '-' then cs else c :: cs) with
        | none => none
        | some un =>
          if c = '-' then
            if 2 ^ 63 < un then none else some (-(un : Int))
          else if 2 ^ 63 ≤ un then none
          else some (un : Int)) = _
  rw [if_neg (digit_not_sign c hdigc)]
  rw [goParseUint_nz c cs h0]
  have hall : ∀ x ∈ c :: cs, isDigit x = true ∧ x.toNat - 48 < 10 := by
    intro x hx
    obtain ⟨hx1, hx2⟩ := isDigit_toNat x (hd x hx)
    exact ⟨hd x hx, by omega⟩
  have hrun : runVal 10 0 (c :: cs) ≤ 2 ^ 64 - 1 := by
    have : decVal (c :: cs) < 2 ^ 63 := hb
    unfold decVal at this
    omega
  rw [goDigits_run 10 (2 ^ 64 - 1) (c :: cs) 0 hall hrun]
  have hneg : ¬(c = '-') := fun hx => digit_not_sign c hdigc (Or.inr hx)
  show (if c = '-' then
          if 2 ^ 63 < runVal 10 0 (c :: cs) then none
          else some (-(runVal 10 0 (c :: cs) : Int))
        else if 2 ^ 63 ≤ runVal 10 0 (c :: cs) then none
        else some (runVal 10 0 (c :: cs) : Int)) = _
  rw [if_neg hneg, if_neg (by unfold decVal at hb; omega)]
  rfl

theorem goParseInt_oct (ds : List Char)
    (hd : ∀ c ∈ ds, isDigit c = true) (h7 : ∀ c ∈ ds, c.toNat < 56)
    (hb : octVal ds < 2 ^ 63) :
    goParseInt (String.mk ('0' :: ds)) = some (octVal ds : Int) := by
  show (match goParseUintBase0 (if '0' = '+' ∨ '0' = '-' then ds else '0' :: ds) with
        | none => none
        | some un =>
          if '0' = '-' then
            if 2 ^ 63 < un then none else some (-(un : Int))
          else if 2 ^ 63 ≤ un then none
          else some (un : Int)) = _
  rw [if_neg (by decide)]
  rw [goParseUint_zero ds hd]
  have hall : ∀ x ∈ ds, isDigit x = true ∧ x.toNat - 48 < 8 := by
    intro x hx
    have := h7 x hx
    obtain ⟨hx1, hx2⟩ := isDigit_toNat x (hd x hx)
    exact ⟨hd x hx, by omega⟩
  have hrun : runVal 8 0 ds ≤ 2 ^ 64 - 1 := by
    unfold octVal at hb
    omega
  rw [goDigits_run 8 (2 ^ 64 - 1) ds 0 hall hrun]
  show (if '0' = '-' then
          if 2 ^ 63 < runVal 8 0 ds then none
          else some (-(runVal 8 0 ds : Int))
        else if 2 ^ 63 ≤ runVal 8 0 ds then none
        else some (runVal 8 0 ds : Int)) = _
  rw [if_neg (by decide), if_neg (by unfold octVal at hb; omega)]
  rfl

theorem goParseInt_oct_bad (ds : List Char)
    (hd : ∀ c ∈ ds, isDigit c = true) (hbad : ∃ c ∈ ds, 56 ≤ c.toNat) :
    goParseInt (String.mk ('0' :: ds)) = none := by
  show (match goParseUintBase0 (if '0' = '+' ∨ '0' = '-' then ds else '0' :: ds) with
        | none => none
        | some un =>
          if '0' = '-' then
            if 2 ^ 63 < un then none else some (-(un : Int))
          else if 2 ^ 63 ≤ un then none
          else some (un : Int)) = _
  rw [if_neg (by decide)]
  rw [goParseUint_zero ds hd]
  have hbad2 : ∃ c ∈ ds, 8 ≤ c.toNat - 48 := by
    obtain ⟨x, hx, hxv⟩ := hbad
    exact ⟨x, hx, by omega⟩
  rw [goDigits_bad 8 (2 ^ 64 - 1) ds 0 hd hbad2]


/-- C1 counterexample: the handler parses with base-0 (not base-10)
semantics, so the `INT` token `"010"` is read as octal: the stored
value is `8`, not the decimal `10` the claim asserts, and `"08"`
records `could not parse "08" as integer` and returns nil instead of
yielding `8` without error. -/
theorem C1_counterexample :
    (parseIntegerLiteral ⟨⟨.INT, "010"⟩, ⟨.SEMICOLON, ";"⟩, [], []⟩).1 =
        some (.intE ⟨.INT, "010"⟩ 8) ∧
      (parseIntegerLiteral ⟨⟨.INT, "010"⟩, ⟨.SEMICOLON, ";"⟩, [], []⟩).1 ≠
        some (.intE ⟨.INT, "010"⟩ 10) ∧
      parseIntegerLiteral ⟨⟨.INT, "08"⟩, ⟨.SEMICOLON, ";"⟩, [], []⟩ =
        (none, ⟨⟨.INT, "08"⟩, ⟨.SEMICOLON, ";"⟩, [],
          ["could not parse \"08\" as integer"]⟩) := by
  refine ⟨rfl, ?_, rfl⟩
  intro h
  have h8 : (parseIntegerLiteral ⟨⟨.INT, "010"⟩, ⟨.SEMICOLON, ";"⟩, [], []⟩).1 =
      some (.intE ⟨.INT, "010"⟩ 8) := rfl
  rw [h8] at h
  injection h with h1
  injection h1 with htok hv
  exact absurd hv (by decide)

/-- C1 (amended): for every `INT` token handed to the parser, the
integer-literal handler converts the literal with
`strconv.ParseInt(lit, 0, 64)` — base `0`, prefix-sensitive — and
stores that value; exactly when that conversion fails it records
`"could not parse %q as integer"` and returns nil.  On the digit runs
the lexer produces this means: a run not starting with `0` is read as
decimal; a run `0…` is read as octal, so `"010"` yields `8`, and a
leading-zero run containing `8` or `9`, such as `"08"`, fails with the
recorded error. -/
theorem C1_integer_literal_base0 :
    (∀ (st : PState) (v : Int), goParseInt st.current.literal = some v →
        parseIntegerLiteral st = (some (.intE st.current v), st)) ∧
      (∀ st : PState, goParseInt st.current.literal = none →
        parseIntegerLiteral st =
          (none, addError st
            ("could not parse " ++ goQuote st.current.literal ++ " as integer"))) ∧
      (∀ (c : Char) (cs : List Char), (∀ x ∈ c :: cs, isDigit x = true) →
        c ≠ '0' → decVal (c :: cs) < 2 ^ 63 →
        goParseInt (String.mk (c :: cs)) = some (decVal (c :: cs) : Int)) ∧
      (∀ ds : List Char, (∀ c ∈ ds, isDigit c = true) →
        (∀ c ∈ ds, c.toNat < 56) → octVal ds < 2 ^ 63 →
        goParseInt (String.mk ('0' :: ds)) = some (octVal ds : Int)) ∧
      (∀ ds : List Char, (∀ c ∈ ds, isDigit c = true) → (∃ c ∈ ds, 56 ≤ c.toNat) →
        goParseInt (String.mk ('0' :: ds)) = none) ∧
      goParseInt "010" = some 8 ∧ goParseInt "08" = none := by
  refine ⟨?_, ?_, goParseInt_dec, goParseInt_oct, goParseInt_oct_bad, rfl, rfl⟩
  · intro st v h
    unfold parseIntegerLiteral
    rw [h]
  · intro st h
    unfold parseIntegerLiteral
    rw [h]

theorem C1_witness :
    parseIntegerLiteral ⟨⟨.INT, "7"⟩, ⟨.EOF, ""⟩, [], []⟩ =
        (some (.intE ⟨.INT, "7"⟩ 7), ⟨⟨.INT, "7"⟩, ⟨.EOF, ""⟩, [], []⟩) ∧
      goParseInt (String.mk ['1', '0']) = some 10 ∧
      goParseInt (String.mk ['0', '1', '0']) = some 8 ∧
      goParseInt (String.mk ['0', '8']) = none :=
  ⟨C1_integer_literal_base0.1 ⟨⟨.INT, "7"⟩, ⟨.EOF, ""⟩, [], []⟩ 7 (by decide),
    (C1_integer_literal_base0.2.2.1 '1' ['0'] (by decide) (by decide)
      (by decide)).trans (by decide),
    (C1_integer_literal_base0.2.2.2.1 ['1', '0'] (by decide) (by decide)
      (by decide)).trans (by decide),
    C1_integer_literal_base0.2.2.2.2.1 ['8'] (by decide) (by decide)⟩

/-! ## Error-accumulator lemmas for the C5 invariant -/

theorem errExt_refl (a : List String) : errExt a a :=
  ⟨[], by simp⟩

theorem errExt_trans {a b c : List String} (h1 : errExt a b) (h2 : errExt b c) :
    errExt a c := by
  obtain ⟨t, rfl⟩ := h1
  obtain ⟨u, rfl⟩ := h2
  exact ⟨t ++ u, by simp⟩

theorem errExt_length {a b : List String} (h : errExt a b) :
    a.length ≤ b.length := by
  obtain ⟨t, rfl⟩ := h
  simp

theorem errExt_squeeze {a b c : List String} (h1 : errExt a b) (h2 : errExt b c)
    (h3 : c = a) : b = a := by
  obtain ⟨t, rfl⟩ := h1
  obtain ⟨u, rfl⟩ := h2
  have hlen := congrArg List.length h3
  rw [List.length_append, List.length_append] at hlen
  have ht : t = [] := List.eq_nil_of_length_eq_zero (by omega)
  subst ht
  simp

theorem errExt_snoc (a : List String) (m : String) : errExt a (a ++ [m]) :=
  ⟨[m], rfl⟩

theorem snoc_ne (a : List String) (m : String) : a ++ [m] ≠ a := by
  intro h
  have := congrArg List.length h
  simp at this

theorem advanceToken_errors (st : PState) :
    (advanceToken st).errors = st.errors := rfl

theorem skipAux_errors (fuel : Nat) :
    ∀ st : PState, (skipAux fuel st).errors = st.errors := by
  induction fuel with
  | zero => intro st; rfl
  | succ fuel ih =>
    intro st
    show (if st.current.type = .SEMICOLON ∨ st.current.type = .EOF then st
          else skipAux fuel (advanceToken st)).errors = st.errors
    split
    · rfl
    · rw [ih (advanceToken st)]
      rfl

theorem skipToStatementEnd_errors (st : PState) :
    (skipToStatementEnd st).errors = st.errors :=
  skipAux_errors (pMeasure st + 1) st

theorem addError_errors (st : PState) (m : String) :
    (addError st m).errors = st.errors ++ [m] := rfl

theorem aip_errors_true (t : TokenType) (st : PState)
    (h : (advanceIfPeekIs t st).1 = true) :
    (advanceIfPeekIs t st).2.errors = st.errors := by
  unfold advanceIfPeekIs at h ⊢
  by_cases hc : tokenIs st.peek t = true
  · rw [if_pos hc]
    rfl
  · rw [if_neg hc] at h
    simp at h

theorem aip_errors_false (t : TokenType) (st : PState)
    (h : (advanceIfPeekIs t st).1 = false) :
    ∃ m, (advanceIfPeekIs t st).2.errors = st.errors ++ [m] := by
  unfold advanceIfPeekIs at h ⊢
  by_cases hc : tokenIs st.peek t = true
  · rw [if_pos hc] at h
    simp at h
  · rw [if_neg hc]
    exact ⟨_, (skipToStatementEnd_errors _).trans (addError_errors st _)⟩

theorem aip_errExt (t : TokenType) (st : PState) :
    errExt st.errors (advanceIfPeekIs t st).2.errors := by
  cases hb : (advanceIfPeekIs t st).1 with
  | true => rw [aip_errors_true t st hb]; exact errExt_refl _
  | false =>
    obtain ⟨m, hm⟩ := aip_errors_false t st hb
    rw [hm]
    exact errExt_snoc _ _

theorem pls_errExt (st : PState) :
    errExt st.errors (parseLetStatement st).2.errors := by
  unfold parseLetStatement
  cases hA : advanceIfPeekIs .IDENT st with
  | mk b1 stA =>
    have eA : errExt st.errors stA.errors := by
      have := aip_errExt .IDENT st
      rw [hA] at this
      exact this
    cases b1
    · exact eA
    · simp only []
      cases hB : advanceIfPeekIs .ASSIGN stA with
      | mk b2 stB =>
        have eB : errExt stA.errors stB.errors := by
          have := aip_errExt .ASSIGN stA
          rw [hB] at this
          exact this
        cases b2
        · exact errExt_trans eA eB
        · simp only []
          rw [skipToStatementEnd_errors]
          exact errExt_trans eA eB

theorem pls_ok (st : PState) (s : Stmt)
    (h : (parseLetStatement st).1 = some s) : stmtOk s = true := by
  unfold parseLetStatement at h
  cases hA : advanceIfPeekIs .IDENT st with
  | mk b1 stA =>
    rw [hA] at h
    cases b1
    · simp at h
    · simp only [] at h
      cases hB : advanceIfPeekIs .ASSIGN stA with
      | mk b2 stB =>
        rw [hB] at h
        cases b2
        · simp at h
        · simp only [] at h
          rw [← Option.some.inj h]
          rfl

theorem prs_errors (st : PState) :
    (parseReturnStatement st).2.errors = st.errors :=
  skipToStatementEnd_errors st

theorem prs_ok (st : PState) (s : Stmt)
    (h : (parseReturnStatement st).1 = some s) : stmtOk s = true := by
  unfold parseReturnStatement at h
  rw [← Option.some.inj h]
  rfl

theorem pil_errExt (st : PState) :
    errExt st.errors (parseIntegerLiteral st).2.errors := by
  unfold parseIntegerLiteral
  cases goParseInt st.current.literal
  · exact errExt_snoc _ _
  · exact errExt_refl _

theorem pil_ok (st : PState)
    (h : (parseIntegerLiteral st).2.errors = st.errors) :
    ∃ e, (parseIntegerLiteral st).1 = some e ∧ exprOk e = true := by
  unfold parseIntegerLiteral at *
  cases hg : goParseInt st.current.literal with
  | none =>
    rw [hg] at h
    exact absurd h (snoc_ne _ _)
  | some v => exact ⟨.intE st.current v, rfl, rfl⟩

theorem stmtsOk_append (l : List Stmt) (s : Stmt) :
    stmtsOk (l ++ [s]) = (stmtsOk l && stmtOk s) := by
  induction l with
  | nil => simp [stmtsOk]
  | cons x xs ih =>
    show (stmtOk x && stmtsOk (xs ++ [s])) = _
    rw [ih]
    show _ = ((stmtOk x && stmtsOk xs) && stmtOk s)
    rw [Bool.and_assoc]


theorem errExt_of_eq {a b : List String} (h : b = a) : errExt a b :=
  ⟨[], by simp [h]⟩

theorem errExt_snoc_reset {a b c : List String} (m : String)
    (h1 : errExt a b) (h2 : c = b ++ [m]) (h3 : c = a) : False := by
  have l1 := errExt_length h1
  have l2 : c.length = b.length + 1 := by rw [h2]; simp
  rw [h3] at l2
  omega

theorem parserInv : ∀ fuel : Nat,
    (∀ (prec : Nat) (st : PState) (r : Option Expression × PState),
      parseExpression fuel prec st = some r →
        errExt st.errors r.2.errors ∧
          (r.2.errors = st.errors → ∃ e, r.1 = some e ∧ exprOk e = true)) ∧
    (∀ (prec : Nat) (left : Option Expression) (st : PState)
        (r : Option Expression × PState),
      parseExpLoop fuel prec left st = some r →
        errExt st.errors r.2.errors ∧
          ((r.2.errors = st.errors ∧ ∃ e, left = some e ∧ exprOk e = true) →
            ∃ e, r.1 = some e ∧ exprOk e = true)) ∧
    (∀ (st : PState) (r : Expression × PState),
      parsePrefixExpression fuel st = some r →
        errExt st.errors r.2.errors ∧
          (r.2.errors = st.errors → exprOk r.1 = true)) ∧
    (∀ (left : Option Expression) (st : PState) (r : Expression × PState),
      parseInfixExpression fuel left st = some r →
        errExt st.errors r.2.errors ∧
          ((r.2.errors = st.errors ∧ ∃ e, left = some e ∧ exprOk e = true) →
            exprOk r.1 = true)) ∧
    (∀ (st : PState) (r : Option Expression × PState),
      parseGroupedExpression fuel st = some r →
        errExt st.errors r.2.errors ∧
          (r.2.errors = st.errors → ∃ e, r.1 = some e ∧ exprOk e = true)) ∧
    (∀ (st : PState) (r : Option Expression × PState),
      parseIfExpression fuel st = some r →
        errExt st.errors r.2.errors ∧
          (r.2.errors = st.errors → ∃ e, r.1 = some e ∧ exprOk e = true)) ∧
    (∀ (st : PState) (r : Block × PState),
      parseBlockStatement fuel st = some r →
        errExt st.errors r.2.errors ∧
          (r.2.errors = st.errors → blockOk r.1 = true)) ∧
    (∀ (acc : List Stmt) (st : PState) (r : List Stmt × PState),
      parseBlockLoop fuel acc st = some r →
        errExt st.errors r.2.errors ∧
          ((r.2.errors = st.errors ∧ stmtsOk acc = true) → stmtsOk r.1 = true)) ∧
    (∀ (st : PState) (r : Option Stmt × PState),
      parseStatement fuel st = some r →
        errExt st.errors r.2.errors ∧
          (r.2.errors = st.errors → ∀ s, r.1 = some s → stmtOk s = true)) ∧
    (∀ (st : PState) (r : Stmt × PState),
      parseExpressionStatement fuel st = some r →
        errExt st.errors r.2.errors ∧
          (r.2.errors = st.errors → stmtOk r.1 = true)) ∧
    (∀ (acc : List Stmt) (st : PState) (r : List Stmt × PState),
      parseProgramLoop fuel acc st = some r →
        errExt st.errors r.2.errors ∧
          ((r.2.errors = st.errors ∧ stmtsOk acc = true) → stmtsOk r.1 = true)) := by
  intro fuel
  induction fuel with
  | zero =>
    refine ⟨?_, ?_, ?_, ?_, ?_, ?_, ?_, ?_, ?_, ?_, ?_⟩ <;>
      (intros; exact absurd (by assumption) (by intro h; exact Option.noConfusion h))
  | succ fuel ih =>
    obtain ⟨ihExp, ihLoop, ihPre, ihInf, ihGrp, ihIf, ihBlkS, ihBlkL,
      ihStmt, ihExpS, ihProgL⟩ := ih
    refine ⟨?_, ?_, ?_, ?_, ?_, ?_, ?_, ?_, ?_, ?_, ?_⟩
    -- parseExpression
    · intro prec st r h
      simp only [parseExpression] at h
      cases hty : st.current.type
      case IDENT =>
        rw [hty] at h
        simp only [parseIdentifier] at h
        obtain ⟨hext, hok⟩ := ihLoop prec _ _ r h
        exact ⟨hext, fun heq => hok ⟨heq, ⟨_, rfl, rfl⟩⟩⟩
      case INT =>
        rw [hty] at h
        cases hpil : parseIntegerLiteral st with
        | mk e1 stI =>
          rw [hpil] at h
          simp only [] at h
          have hIext : errExt st.errors stI.errors := by
            have := pil_errExt st
            rw [hpil] at this
            exact this
          obtain ⟨hext, hok⟩ := ihLoop prec e1 stI r h
          refine ⟨errExt_trans hIext hext, fun heq => ?_⟩
          have hIeq : stI.errors = st.errors := errExt_squeeze hIext hext heq
          have hsome : ∃ e, e1 = some e ∧ exprOk e = true := by
            have h2 := pil_ok st (by rw [hpil]; exact hIeq)
            rw [hpil] at h2
            exact h2
          exact hok ⟨heq.trans hIeq.symm, hsome⟩
      case BANG =>
        rw [hty] at h
        cases hp : parsePrefixExpression fuel st with
        | none =>
          rw [hp] at h
          exact Option.noConfusion h
        | some p =>
          cases p with
          | mk e1 stP =>
            rw [hp] at h
            simp only [] at h
            obtain ⟨hPext, hPok⟩ := ihPre st (e1, stP) hp
            obtain ⟨hext, hok⟩ := ihLoop prec (some e1) stP r h
            refine ⟨errExt_trans hPext hext, fun heq => ?_⟩
            have hPeq : stP.errors = st.errors := errExt_squeeze hPext hext heq
            exact hok ⟨heq.trans hPeq.symm, ⟨e1, rfl, hPok hPeq⟩⟩
      case MINUS =>
        rw [hty] at h
        cases hp : parsePrefixExpression fuel st with
        | none =>
          rw [hp] at h
          exact Option.noConfusion h
        | some p =>
          cases p with
          | mk e1 stP =>
            rw [hp] at h
            simp only [] at h
            obtain ⟨hPext, hPok⟩ := ihPre st (e1, stP) hp
            obtain ⟨hext, hok⟩ := ihLoop prec (some e1) stP r h
            refine ⟨errExt_trans hPext hext, fun heq => ?_⟩
            have hPeq : stP.errors = st.errors := errExt_squeeze hPext hext heq
            exact hok ⟨heq.trans hPeq.symm, ⟨e1, rfl, hPok hPeq⟩⟩
      case TRUE =>
        rw [hty] at h
        simp only [parseBoolean] at h
        obtain ⟨hext, hok⟩ := ihLoop prec _ _ r h
        exact ⟨hext, fun heq => hok ⟨heq, ⟨_, rfl, rfl⟩⟩⟩
      case FALSE =>
        rw [hty] at h
        simp only [parseBoolean] at h
        obtain ⟨hext, hok⟩ := ihLoop prec _ _ r h
        exact ⟨hext, fun heq => hok ⟨heq, ⟨_, rfl, rfl⟩⟩⟩
      case LPAREN =>
        rw [hty] at h
        cases hg : parseGroupedExpression fuel st with
        | none =>
          rw [hg] at h
          exact Option.noConfusion h
        | some p =>
          cases p with
          | mk e1 stG =>
            rw [hg] at h
            simp only [] at h
            obtain ⟨hGext, hGok⟩ := ihGrp st (e1, stG) hg
            obtain ⟨hext, hok⟩ := ihLoop prec e1 stG r h
            refine ⟨errExt_trans hGext hext, fun heq => ?_⟩
            have hGeq : stG.errors = st.errors := errExt_squeeze hGext hext heq
            exact hok ⟨heq.trans hGeq.symm, hGok hGeq⟩
      case IF =>
        rw [hty] at h
        cases hg : parseIfExpression fuel st with
        | none =>
          rw [hg] at h
          exact Option.noConfusion h
        | some p =>
          cases p with
          | mk e1 stG =>
            rw [hg] at h
            simp only [] at h
            obtain ⟨hGext, hGok⟩ := ihIf st (e1, stG) hg
            obtain ⟨hext, hok⟩ := ihLoop prec e1 stG r h
            refine ⟨errExt_trans hGext hext, fun heq => ?_⟩
            have hGeq : stG.errors = st.errors := errExt_squeeze hGext hext heq
            exact hok ⟨heq.trans hGeq.symm, hGok hGeq⟩
      all_goals
        (rw [hty] at h
         simp only [] at h
         obtain rfl := Option.some.inj h
         exact ⟨errExt_snoc _ _, fun heq => absurd heq (snoc_ne _ _)⟩)
    -- parseExpLoop
    · intro prec left st r h
      simp only [parseExpLoop] at h
      split_ifs at h with h1 h2 h3
      · obtain rfl := Option.some.inj h
        exact ⟨errExt_refl _, fun hyp => hyp.2⟩
      · cases hinf : parseInfixExpression fuel left (advanceToken st) with
        | none =>
          rw [hinf] at h
          exact Option.noConfusion h
        | some p =>
          cases p with
          | mk e1 stI =>
            rw [hinf] at h
            simp only [] at h
            obtain ⟨hIext, hIok⟩ := ihInf left (advanceToken st) (e1, stI) hinf
            obtain ⟨hext, hok⟩ := ihLoop prec (some e1) stI r h
            refine ⟨errExt_trans hIext hext, fun hyp => ?_⟩
            obtain ⟨heq, hleft⟩ := hyp
            have hIeq : stI.errors = st.errors := errExt_squeeze hIext hext heq
            have he1 : exprOk e1 = true := hIok ⟨hIeq, hleft⟩
            exact hok ⟨heq.trans hIeq.symm, ⟨e1, rfl, he1⟩⟩
      · obtain rfl := Option.some.inj h
        exact ⟨errExt_refl _, fun hyp => hyp.2⟩
      · obtain rfl := Option.some.inj h
        exact ⟨errExt_refl _, fun hyp => hyp.2⟩
    -- parsePrefixExpression
    · intro st r h
      simp only [parsePrefixExpression] at h
      cases hx : parseExpression fuel PREFIX (advanceToken st) with
      | none =>
        rw [hx] at h
        exact Option.noConfusion h
      | some p =>
        cases p with
        | mk e1 st1 =>
          rw [hx] at h
          simp only [] at h
          obtain rfl := Option.some.inj h
          obtain ⟨hext, hok⟩ := ihExp PREFIX (advanceToken st) (e1, st1) hx
          refine ⟨hext, fun heq => ?_⟩
          obtain ⟨e2, rfl, hok2⟩ := hok heq
          simp only [exprOk]
          exact hok2
    -- parseInfixExpression
    · intro left st r h
      simp only [parseInfixExpression] at h
      cases hx : parseExpression fuel (tokenPrecedence st.current.type)
          (advanceToken st) with
      | none =>
        rw [hx] at h
        exact Option.noConfusion h
      | some p =>
        cases p with
        | mk e1 st1 =>
          rw [hx] at h
          simp only [] at h
          obtain rfl := Option.some.inj h
          obtain ⟨hext, hok⟩ := ihExp _ (advanceToken st) (e1, st1) hx
          refine ⟨hext, fun hyp => ?_⟩
          obtain ⟨heq, hleft⟩ := hyp
          obtain ⟨eL, rfl, hLok⟩ := hleft
          obtain ⟨eR, rfl, hRok⟩ := hok heq
          simp only [exprOk]
          rw [hLok, hRok]
          rfl
    -- parseGroupedExpression
    · intro st r h
      simp only [parseGroupedExpression] at h
      cases hx : parseExpression fuel LOWEST (advanceToken st) with
      | none =>
        rw [hx] at h
        exact Option.noConfusion h
      | some p =>
        cases p with
        | mk e1 st1 =>
          rw [hx] at h
          simp only [] at h
          obtain ⟨hext1, hok1⟩ := ihExp LOWEST (advanceToken st) (e1, st1) hx
          cases haip : advanceIfPeekIs .RPAREN st1 with
          | mk b st2 =>
            rw [haip] at h
            cases b
            · simp only [] at h
              obtain rfl := Option.some.inj h
              obtain ⟨m, hm⟩ := aip_errors_false .RPAREN st1 (by rw [haip])
              rw [haip] at hm
              refine ⟨errExt_trans hext1 (by rw [hm]; exact errExt_snoc _ _),
                fun heq => absurd heq ?_⟩
              intro heq
              exact errExt_snoc_reset m hext1 hm heq
            · simp only [] at h
              obtain rfl := Option.some.inj h
              have h2eq : st2.errors = st1.errors := by
                have h3 := aip_errors_true .RPAREN st1 (by rw [haip])
                rw [haip] at h3
                exact h3
              refine ⟨by rw [h2eq]; exact hext1, fun heq => ?_⟩
              exact hok1 (h2eq.symm.trans heq)
    -- parseIfExpression
    · intro st r h
      simp only [parseIfExpression] at h
      cases hA : advanceIfPeekIs .LPAREN st with
      | mk bA stA =>
        rw [hA] at h
        have hAext : errExt st.errors stA.errors := by
          have h0 := aip_errExt .LPAREN st
          rw [hA] at h0
          exact h0
        cases bA
        · simp only [] at h
          obtain rfl := Option.some.inj h
          obtain ⟨m, hm⟩ := aip_errors_false .LPAREN st (by rw [hA])
          rw [hA] at hm
          exact ⟨hAext,
            fun heq => absurd (errExt_snoc_reset m (errExt_refl _) hm heq) id⟩
        · simp only [] at h
          cases hx : parseExpression fuel LOWEST (advanceToken stA) with
          | none =>
            rw [hx] at h
            exact Option.noConfusion h
          | some p =>
            cases p with
            | mk cond stB =>
              rw [hx] at h
              simp only [] at h
              obtain ⟨hBext, hBok⟩ := ihExp LOWEST (advanceToken stA) (cond, stB) hx
              have hExtB : errExt st.errors stB.errors := errExt_trans hAext hBext
              cases hC : advanceIfPeekIs .RPAREN stB with
              | mk bC stC =>
                rw [hC] at h
                cases bC
                · simp only [] at h
                  obtain rfl := Option.some.inj h
                  obtain ⟨m, hm⟩ := aip_errors_false .RPAREN stB (by rw [hC])
                  rw [hC] at hm
                  exact ⟨errExt_trans hExtB (by rw [hm]; exact errExt_snoc _ _),
                    fun heq => absurd (errExt_snoc_reset m hExtB hm heq) id⟩
                · have hCeq : stC.errors = stB.errors := by
                    have h3 := aip_errors_true .RPAREN stB (by rw [hC])
                    rw [hC] at h3
                    exact h3
                  simp only [] at h
                  cases hD : advanceIfPeekIs .LBRACE stC with
                  | mk bD stD =>
                    rw [hD] at h
                    have hExtC : errExt st.errors stC.errors := by
                      rw [hCeq]
                      exact hExtB
                    cases bD
                    · simp only [] at h
                      obtain rfl := Option.some.inj h
                      obtain ⟨m, hm⟩ := aip_errors_false .LBRACE stC (by rw [hD])
                      rw [hD] at hm
                      exact ⟨errExt_trans hExtC (by rw [hm]; exact errExt_snoc _ _),
                        fun heq => absurd (errExt_snoc_reset m hExtC hm heq) id⟩
                    · have hDeq : stD.errors = stC.errors := by
                        have h3 := aip_errors_true .LBRACE stC (by rw [hD])
                        rw [hD] at h3
                        exact h3
                      simp only [] at h
                      cases hblk : parseBlockStatement fuel stD with
                      | none =>
                        rw [hblk] at h
                        exact Option.noConfusion h
                      | some pb =>
                        cases pb with
                        | mk conseq stE =>
                          rw [hblk] at h
                          simp only [] at h
                          obtain ⟨hEext, hEok⟩ := ihBlkS stD (conseq, stE) hblk
                          have hExtD : errExt st.errors stD.errors := by
                            rw [hDeq]
                            exact hExtC
                          have hExtE : errExt st.errors stE.errors :=
                            errExt_trans hExtD hEext
                          split_ifs at h with helse
                          · cases hF : advanceIfPeekIs .LBRACE (advanceToken stE) with
                            | mk bF stF =>
                              rw [hF] at h
                              cases bF
                              · simp only [] at h
                                obtain rfl := Option.some.inj h
                                obtain ⟨m, hm⟩ :=
                                  aip_errors_false .LBRACE (advanceToken stE) (by rw [hF])
                                rw [hF] at hm
                                exact ⟨errExt_trans hExtE (by rw [hm]; exact errExt_snoc _ _),
                                  fun heq => absurd (errExt_snoc_reset m hExtE hm heq) id⟩
                              · have hFeq : stF.errors = stE.errors := by
                                  have h3 :=
                                    aip_errors_true .LBRACE (advanceToken stE) (by rw [hF])
                                  rw [hF] at h3
                                  exact h3
                                simp only [] at h
                                cases hblk2 : parseBlockStatement fuel stF with
                                | none =>
                                  rw [hblk2] at h
                                  exact Option.noConfusion h
                                | some pb2 =>
                                  cases pb2 with
                                  | mk alt stG =>
                                    rw [hblk2] at h
                                    simp only [] at h
                                    obtain rfl := Option.some.inj h
                                    obtain ⟨hGext, hGok⟩ := ihBlkS stF (alt, stG) hblk2
                                    have hExtF : errExt st.errors stF.errors := by
                                      rw [hFeq]
                                      exact hExtE
                                    refine ⟨errExt_trans hExtF hGext, fun heq => ?_⟩
                                    have hFeq2 : stF.errors = st.errors :=
                                      errExt_squeeze hExtF hGext heq
                                    have hEeq2 : stE.errors = st.errors :=
                                      hFeq.symm.trans hFeq2
                                    have hDeq2 : stD.errors = st.errors :=
                                      errExt_squeeze hExtD hEext hEeq2
                                    have hBeq2 : stB.errors = st.errors :=
                                      (hCeq.symm.trans (hDeq.symm.trans hDeq2) : _)
                                    have hAeq2 : stA.errors = st.errors :=
                                      errExt_squeeze hAext hBext hBeq2
                                    have hcond := hBok (hBeq2.trans hAeq2.symm)
                                    have hconsq := hEok (hEeq2.trans hDeq2.symm)
                                    have halt := hGok (heq.trans hFeq2.symm)
                                    refine ⟨_, rfl, ?_⟩
                                    obtain ⟨ec, rfl, hec⟩ := hcond
                                    simp only [exprOk]
                                    rw [hec, hconsq, halt]
                                    rfl
                          · obtain rfl := Option.some.inj h
                            refine ⟨hExtE, fun heq => ?_⟩
                            have hDeq2 : stD.errors = st.errors :=
                              errExt_squeeze hExtD hEext heq
                            have hBeq2 : stB.errors = st.errors :=
                              (hCeq.symm.trans (hDeq.symm.trans hDeq2) : _)
                            have hAeq2 : stA.errors = st.errors :=
                              errExt_squeeze hAext hBext hBeq2
                            have hcond := hBok (hBeq2.trans hAeq2.symm)
                            have hconsq := hEok (heq.trans hDeq2.symm)
                            refine ⟨_, rfl, ?_⟩
                            obtain ⟨ec, rfl, hec⟩ := hcond
                            simp only [exprOk]
                            rw [hec, hconsq]
                            rfl
    -- parseBlockStatement
    · intro st r h
      simp only [parseBlockStatement] at h
      cases hbl : parseBlockLoop fuel [] (advanceToken st) with
      | none =>
        rw [hbl] at h
        exact Option.noConfusion h
      | some p =>
        cases p with
        | mk stmts st1 =>
          rw [hbl] at h
          simp only [] at h
          obtain rfl := Option.some.inj h
          obtain ⟨hext, hok⟩ := ihBlkL [] (advanceToken st) (stmts, st1) hbl
          refine ⟨hext, fun heq => ?_⟩
          exact hok ⟨heq, rfl⟩
    -- parseBlockLoop
    · intro acc st r h
      simp only [parseBlockLoop] at h
      split_ifs at h with hex
      · obtain rfl := Option.some.inj h
        exact ⟨errExt_refl _, fun hyp => hyp.2⟩
      · cases hstm : parseStatement fuel st with
        | none =>
          rw [hstm] at h
          exact Option.noConfusion h
        | some p =>
          cases p with
          | mk sOpt st1 =>
            rw [hstm] at h
            simp only [] at h
            obtain ⟨hSext, hSok⟩ := ihStmt st (sOpt, st1) hstm
            cases sOpt with
            | none =>
              simp only [] at h
              obtain ⟨hLext, hLok⟩ := ihBlkL acc (advanceToken st1) r h
              refine ⟨errExt_trans hSext hLext, fun hyp => ?_⟩
              obtain ⟨heq, haccOk⟩ := hyp
              have h1eq : st1.errors = st.errors := errExt_squeeze hSext hLext heq
              exact hLok ⟨heq.trans h1eq.symm, haccOk⟩
            | some s =>
              simp only [] at h
              obtain ⟨hLext, hLok⟩ := ihBlkL (acc ++ [s]) (advanceToken st1) r h
              refine ⟨errExt_trans hSext hLext, fun hyp => ?_⟩
              obtain ⟨heq, haccOk⟩ := hyp
              have h1eq : st1.errors = st.errors := errExt_squeeze hSext hLext heq
              have hacc1 : stmtsOk (acc ++ [s]) = true := by
                rw [stmtsOk_append, haccOk, hSok h1eq s rfl]
                rfl
              exact hLok ⟨heq.trans h1eq.symm, hacc1⟩
    -- parseStatement
    · intro st r h
      simp only [parseStatement] at h
      cases hty : st.current.type
      case LET =>
        rw [hty] at h
        simp only [] at h
        obtain rfl := Option.some.inj h
        exact ⟨pls_errExt st, fun _ s hs => pls_ok st s hs⟩
      case RETURN =>
        rw [hty] at h
        simp only [] at h
        obtain rfl := Option.some.inj h
        exact ⟨errExt_of_eq (prs_errors st), fun _ s hs => prs_ok st s hs⟩
      all_goals
        (rw [hty] at h
         simp only [] at h
         cases hes : parseExpressionStatement fuel st with
         | none =>
           rw [hes] at h
           exact Option.noConfusion h
         | some p =>
           cases p with
           | mk s1 st1 =>
             rw [hes] at h
             simp only [] at h
             obtain rfl := Option.some.inj h
             obtain ⟨hext, hok⟩ := ihExpS st (s1, st1) hes
             exact ⟨hext, fun heq s hs => by
               rw [← Option.some.inj hs]
               exact hok heq⟩)
    -- parseExpressionStatement
    · intro st r h
      simp only [parseExpressionStatement] at h
      cases hx : parseExpression fuel LOWEST st with
      | none =>
        rw [hx] at h
        exact Option.noConfusion h
      | some p =>
        cases p with
        | mk e1 st1 =>
          rw [hx] at h
          simp only [] at h
          obtain rfl := Option.some.inj h
          obtain ⟨hext, hok⟩ := ihExp LOWEST st (e1, st1) hx
          have hfin : (if tokenIs st1.peek .SEMICOLON = true then advanceToken st1
              else st1).errors = st1.errors := by
            split
            · rfl
            · rfl
          constructor
          · show errExt st.errors (if tokenIs st1.peek .SEMICOLON = true
              then advanceToken st1 else st1).errors
            rw [hfin]
            exact hext
          · intro heq
            rw [hfin] at heq
            obtain ⟨e, rfl, he⟩ := hok heq
            simp only [stmtOk]
            exact he
    -- parseProgramLoop
    · intro acc st r h
      simp only [parseProgramLoop] at h
      split_ifs at h with hex
      · obtain rfl := Option.some.inj h
        exact ⟨errExt_refl _, fun hyp => hyp.2⟩
      · cases hstm : parseStatement fuel st with
        | none =>
          rw [hstm] at h
          exact Option.noConfusion h
        | some p =>
          cases p with
          | mk sOpt st1 =>
            rw [hstm] at h
            simp only [] at h
            obtain ⟨hSext, hSok⟩ := ihStmt st (sOpt, st1) hstm
            cases sOpt with
            | none =>
              simp only [] at h
              obtain ⟨hLext, hLok⟩ := ihProgL acc (advanceToken st1) r h
              refine ⟨errExt_trans hSext hLext, fun hyp => ?_⟩
              obtain ⟨heq, haccOk⟩ := hyp
              have h1eq : st1.errors = st.errors := errExt_squeeze hSext hLext heq
              exact hLok ⟨heq.trans h1eq.symm, haccOk⟩
            | some s =>
              simp only [] at h
              obtain ⟨hLext, hLok⟩ := ihProgL (acc ++ [s]) (advanceToken st1) r h
              refine ⟨errExt_trans hSext hLext, fun hyp => ?_⟩
              obtain ⟨heq, haccOk⟩ := hyp
              have h1eq : st1.errors = st.errors := errExt_squeeze hSext hLext heq
              have hacc1 : stmtsOk (acc ++ [s]) = true := by
                rw [stmtsOk_append, haccOk, hSok h1eq s rfl]
                rfl
              exact hLok ⟨heq.trans h1eq.symm, hacc1⟩


/-- C5: for every input, if `ParseProgram` finishes with an empty
error list, then every `InfixExpression` node anywhere in the returned
program has non-null left and right children and every
`PrefixExpression` node a non-null right child: a null child can only
arise together with at least one recorded error. -/
theorem C5_no_null_children (fuel : Nat) (input : String)
    (prog : List Stmt) (st : PState)
    (h : parseInput fuel input = some (prog, st)) (herr : st.errors = []) :
    stmtsOk prog = true := by
  unfold parseInput parseProgram at h
  obtain ⟨hext, hok⟩ :=
    (parserInv fuel).2.2.2.2.2.2.2.2.2.2 [] (mkPState (tokenize input.data))
      (prog, st) h
  exact hok ⟨herr, rfl⟩

theorem C5_witness :
    parseInput 50 "5 + x;" =
        some ([.exprS ⟨.INT, "5"⟩ (some (.infixE ⟨.PLUS, "+"⟩
            (some (.intE ⟨.INT, "5"⟩ 5)) "+" (some (.identE ⟨.IDENT, "x"⟩ "x"))))],
          ⟨⟨.EOF, ""⟩, ⟨.EOF, ""⟩, [], []⟩) ∧
      stmtsOk [.exprS ⟨.INT, "5"⟩ (some (.infixE ⟨.PLUS, "+"⟩
          (some (.intE ⟨.INT, "5"⟩ 5)) "+"
          (some (.identE ⟨.IDENT, "x"⟩ "x"))))] = true :=
  ⟨rfl, C5_no_null_children 50 "5 + x;" _ ⟨⟨.EOF, ""⟩, ⟨.EOF, ""⟩, [], []⟩ rfl rfl⟩

end Monkey
